import Mathlib

/-!
# ocs2 rollout base: interval builder, stability supervisor, diagnostic dump

A shallow embedding of `ocs2_oc/src/rollout/RolloutBase.cpp`.

* Scalar times are elements of a linearly ordered field. Comparisons and copies of scalars
  are exact. The two arithmetic operations of the source on scalars, `endTime - beginTime`
  and `first += eps`, are computed in doubles: `runRounded` applies a rounding function `rnd`
  to the exact result of each, and `roundDouble` is the rounding of binary64 (round to
  nearest, ties to even; overflow, infinities and NaN are outside the model). `run` is the
  instance without rounding (`runRounded_id`); it carries the claims stated in exact
  arithmetic and those that involve only comparisons and copies of scalars.
* `OCS2NumericTraits<scalar_t>::weakEpsilon()` is declared outside this file set: it is the
  parameter `eps` of the model.
* `std::upper_bound` is modelled by its usual binary-search loop over positions.
* The pure virtual `runImpl` is a parameter of `run`; the outcome of `run` records the
  arguments of every invocation of it.
* `size_t` and `int` counters are natural numbers (vector sizes stay far below `2^31`).
* `display` and `checkNumericalStability` are modelled by their traces: the `operator[]` reads
  of the time, state and input sequences, the items written to `std::cerr`, the calls made,
  and the exception that leaves the method, in program order. A call is one step of the
  trace of its caller; the trace of `display` itself is given by `display`.
* A coefficient of a state or input vector is a finite value, an infinity or NaN; time
  stamps of a trajectory are only copied and printed, so their type is arbitrary.
-/

namespace ocs2

/-! ## Types -/

/-- The type `scalar_array_t`: a vector of scalars. -/
abbrev scalar_array_t (α : Type) := List α

/-- The type `size_array_t`: a vector of positions. -/
abbrev size_array_t := List Nat

/-- The type `time_interval_array_t`: a vector of pairs `(first, second)` of times. -/
abbrev time_interval_array_t (α : Type) := List (α × α)

/-! ## Interval builder (`RolloutBase::run`) -/

/-- The search loop of `std::upper_bound` on positions: the range `[first, first + len)` of
`xs` is halved until it is empty; the result is the position where the search ends.
A middle position outside `xs` cannot occur when `first + len ≤ xs.length`. -/
def upper_bound_loop {α : Type} [LinearOrder α] (xs : List α) (val : α) (first len : Nat) : Nat :=
  if 0 < len then
    let half := len / 2
    let middle := first + half
    if hm : middle < xs.length then
      if val < xs[middle] then
        upper_bound_loop xs val first half
      else
        upper_bound_loop xs val (middle + 1) (len - half - 1)
    else first
  else first
termination_by len
decreasing_by
  all_goals simp_wf
  all_goals omega

/-- The call `std::upper_bound(xs.begin(), xs.end(), val)`, as a position in `xs`. -/
def upper_bound {α : Type} [LinearOrder α] (xs : List α) (val : α) : Nat :=
  upper_bound_loop xs val 0 xs.length

/-- The vector `switchingTimes` of `run`: `initTime`, then the event times at positions
`[firstIndex, lastIndex)`, then `finalTime`. -/
def switchingTimes {α : Type} [LinearOrder α] (initTime finalTime : α)
    (eventTimes : scalar_array_t α) : scalar_array_t α :=
  let firstIndex := upper_bound eventTimes initTime
  let lastIndex := upper_bound eventTimes finalTime
  ([initTime] ++ (eventTimes.drop firstIndex).take (lastIndex - firstIndex)) ++ [finalTime]

/-- The pair `(beginTime, endTime)` that iteration `i` of the loop of `run` emplaces:
`(switchingTimes[i], switchingTimes[i + 1])`. -/
def nominalInterval {α : Type} [Zero α] (sw : scalar_array_t α) (i : Nat) : α × α :=
  (sw.getD i 0, sw.getD (i + 1) 0)

/-- The adjustment of the start time of the interval just emplaced, in exact arithmetic:
`first += eps` when `endTime - beginTime > eps`, and `first = endTime` otherwise. The
version with the rounding of the source is `adjustStartRounded`. -/
def adjustStart {α : Type} [LinearOrderedField α] (eps : α) (p : α × α) : α × α :=
  if p.2 - p.1 > eps then (p.1 + eps, p.2) else (p.2, p.2)

/-- The loop of `run` that constructs `timeIntervalArray` from `switchingTimes`. -/
def timeIntervalArray {α : Type} [LinearOrderedField α] (eps : α) (sw : scalar_array_t α) :
    time_interval_array_t α :=
  let numSubsystems := sw.length - 1
  (List.range numSubsystems).foldl
    (fun acc i => acc ++ [adjustStart eps (nominalInterval sw i)]) []

/-- Why a call of `run` fails: the horizon check of `run` itself
(`"Initial time should be less-equal to final time."`), or a failure raised inside the
integration hook. -/
inductive RolloutError (ε : Type) where
  | invalidHorizon : RolloutError ε
  | hook (e : ε) : RolloutError ε
  deriving DecidableEq, Repr

/-- What a call of `run` did: the intervals it constructed, the arguments of every
invocation of the integration hook `runImpl` (in order), and how the call ended. -/
structure RunOutcome (α S ε β : Type) where
  constructed : time_interval_array_t α
  hookCalls : List (time_interval_array_t α × S)
  result : Except (RolloutError ε) β

/-- The method `RolloutBase::run`, in exact arithmetic (the version with the rounding of the
source is `runRounded`). The hook `runImpl` stands for the pure virtual method with the
controller and the output trajectories as part of its closure. -/
def run {α S ε β : Type} [LinearOrderedField α]
    (runImpl : time_interval_array_t α → S → Except ε β) (eps : α)
    (initTime : α) (initState : S) (finalTime : α) (eventTimes : scalar_array_t α) :
    RunOutcome α S ε β :=
  if initTime > finalTime then
    { constructed := [], hookCalls := [], result := Except.error RolloutError.invalidHorizon }
  else
    let sw := switchingTimes initTime finalTime eventTimes
    let intervals := timeIntervalArray eps sw
    { constructed := intervals
      hookCalls := [(intervals, initState)]
      result :=
        match runImpl intervals initState with
        | Except.ok r => Except.ok r
        | Except.error e => Except.error (RolloutError.hook e) }

/-- The event times that the claims call in range: those with `initTime < e ≤ finalTime`. -/
def inRange {α : Type} [LinearOrder α] (initTime finalTime : α) (e : α) : Bool :=
  decide (initTime < e) && decide (e ≤ finalTime)

/-! ## Trajectories and effects -/

/-- A coefficient of a vector: a finite value or one of the non-finite doubles. -/
inductive Coeff (α : Type) where
  | finite (x : α) : Coeff α
  | posInf : Coeff α
  | negInf : Coeff α
  | nan : Coeff α
  deriving DecidableEq, Repr

/-- Whether a coefficient is neither NaN nor an infinity. -/
def Coeff.isFinite {α : Type} : Coeff α → Bool
  | Coeff.finite _ => true
  | _ => false

/-- The type `vector_t`: a dynamic vector of coefficients. -/
abbrev vector_t (α : Type) := List (Coeff α)

/-- The type `vector_array_t`: a vector of vectors. -/
abbrev vector_array_t (α : Type) := List (vector_t α)

/-- The call `v.allFinite()`: every coefficient is finite. -/
def allFinite {α : Type} (v : vector_t α) : Bool :=
  v.all Coeff.isFinite

/-- The two flags of the rollout settings that this file reads. -/
structure Rollout_Settings where
  checkNumericalStability_ : Bool
  reconstructInputTrajectory_ : Bool
  deriving DecidableEq, Repr

/-- The sequence an `operator[]` read goes to. -/
inductive Traj where
  | time : Traj
  | state : Traj
  | input : Traj
  deriving DecidableEq, Repr

/-- The quantity named by the failure of the stability check: `"Rollout: state is not finite"`
or `"Rollout: input is not finite"`. -/
inductive NotFinite where
  | state : NotFinite
  | input : NotFinite
  deriving DecidableEq, Repr

/-- The text of the exception for each offending quantity. -/
def NotFinite.what : NotFinite → String
  | NotFinite.state => "Rollout: state is not finite"
  | NotFinite.input => "Rollout: input is not finite"

/-- One item written to `std::cerr`. A value printed straight from a read is an `Option`:
`none` is the undefined value of a read outside the sequence. -/
inductive Line (α : Type) where
  | trajectoryLength (n : Nat) : Line α
  | totalEvents (m : Nat) : Line α
  | eventTimesLabel : Line α
  | eventTime (t : Option α) : Line α
  | endl : Line α
  | index (k : Nat) : Line α
  | time (t : Option α) : Line α
  | state (x : Option (vector_t α)) : Line α
  | input (u : Option (vector_t α)) : Line α
  | eventTookPlace : Line α
  | what (cause : NotFinite) (t : Option α) : Line α
  deriving DecidableEq, Repr

/-- One observable step of `display` or `checkNumericalStability`, in program order.
`read s i` is an `operator[]` read of sequence `s` at position `i`; `undefined` ends a trace
whose next step depends on the value of a read outside its sequence; `display` and
`controllerDisplay` are the calls of `display(...)` and `controller->display()`; `rethrow`
is the exception leaving `checkNumericalStability`. -/
inductive Effect (α : Type) where
  | read (s : Traj) (idx : Nat) : Effect α
  | undefined : Effect α
  | cerr (l : Line α) : Effect α
  | display (timeTrajectory : scalar_array_t α) (postEventIndicesStock : size_array_t)
      (stateTrajectory : vector_array_t α) (inputTrajectory : Option (vector_array_t α)) :
      Effect α
  | controllerDisplay : Effect α
  | rethrow (cause : NotFinite) : Effect α
  deriving DecidableEq, Repr

/-- How a trace ends. -/
inductive Outcome where
  | returned : Outcome
  | threw (cause : NotFinite) : Outcome
  | undefined : Outcome
  deriving DecidableEq, Repr

/-- The way the call that produced the trace ended, read off its last step. -/
def outcome {α : Type} (tr : List (Effect α)) : Outcome :=
  match tr.getLast? with
  | some (Effect.rethrow c) => Outcome.threw c
  | some Effect.undefined => Outcome.undefined
  | _ => Outcome.returned

/-! ## Diagnostic dump (`RolloutBase::display`) -/

/-- The lines `Index`, `Time`, `State` and, with an input sequence, `Input` of sample `k`. -/
def displaySample {α : Type} (timeTrajectory : scalar_array_t α)
    (stateTrajectory : vector_array_t α) (inputTrajectory : Option (vector_array_t α))
    (k : Nat) : List (Effect α) :=
  [Effect.cerr (Line.index k),
   Effect.read Traj.time k, Effect.cerr (Line.time timeTrajectory[k]?),
   Effect.read Traj.state k, Effect.cerr (Line.state stateTrajectory[k]?)] ++
  match inputTrajectory with
  | some u => [Effect.read Traj.input k, Effect.cerr (Line.input u[k]?)]
  | none => []

/-- The inner loop `for (; k < timeTrajectory.size(); k++)` of `display` in iteration `i` of
the outer loop, started at `k` with `rem = timeTrajectory.size() - k`: the trace and the
value of `k` when the loop is left (after `k++; break;` or when `k` reaches the size). -/
def displayInner {α : Type} (timeTrajectory : scalar_array_t α)
    (postEventIndicesStock : size_array_t) (stateTrajectory : vector_array_t α)
    (inputTrajectory : Option (vector_array_t α)) (i : Nat) :
    (rem : Nat) → (k : Nat) → List (Effect α) × Nat
  | 0, k => ([], k)
  | rem + 1, k =>
    if k < timeTrajectory.length then
      if i < postEventIndicesStock.length ∧ k + 1 = postEventIndicesStock.getD i 0 then
        (displaySample timeTrajectory stateTrajectory inputTrajectory k
          ++ [Effect.cerr Line.eventTookPlace], k + 1)
      else
        let r := displayInner timeTrajectory postEventIndicesStock stateTrajectory
          inputTrajectory i rem (k + 1)
        (displaySample timeTrajectory stateTrajectory inputTrajectory k ++ r.1, r.2)
    else ([], k)

/-- The outer loop `for (size_t i = 0; i < numSubsystems; i++)` of `display`, started at `i`
with `cnt = numSubsystems - i` and the current value of `k`. -/
def displayOuter {α : Type} (timeTrajectory : scalar_array_t α)
    (postEventIndicesStock : size_array_t) (stateTrajectory : vector_array_t α)
    (inputTrajectory : Option (vector_array_t α)) :
    (cnt : Nat) → (i : Nat) → (k : Nat) → List (Effect α)
  | 0, _, _ => []
  | cnt + 1, i, k =>
    if i < postEventIndicesStock.length + 1 then
      let r := displayInner timeTrajectory postEventIndicesStock stateTrajectory
        inputTrajectory i (timeTrajectory.length - k) k
      r.1 ++ displayOuter timeTrajectory postEventIndicesStock stateTrajectory
        inputTrajectory cnt (i + 1) r.2
    else []

/-- The method `RolloutBase::display`: its trace of reads and of items written to `std::cerr`.
A null `inputTrajectory` pointer is `none`. -/
def display {α : Type} (timeTrajectory : scalar_array_t α)
    (postEventIndicesStock : size_array_t) (stateTrajectory : vector_array_t α)
    (inputTrajectory : Option (vector_array_t α)) : List (Effect α) :=
  [Effect.cerr (Line.trajectoryLength timeTrajectory.length),
   Effect.cerr (Line.totalEvents postEventIndicesStock.length)] ++
  (if ¬ postEventIndicesStock.isEmpty then
    [Effect.cerr Line.eventTimesLabel] ++
    postEventIndicesStock.flatMap
      (fun ind => [Effect.read Traj.time ind, Effect.cerr (Line.eventTime timeTrajectory[ind]?)])
    ++ [Effect.cerr Line.endl]
  else []) ++
  [Effect.cerr Line.endl] ++
  displayOuter timeTrajectory postEventIndicesStock stateTrajectory inputTrajectory
    (postEventIndicesStock.length + 1) 0 0

/-! ## Stability supervisor (`RolloutBase::checkNumericalStability`) -/

/-- The copy loop `for (size_t j = 0; j <= i; j++)` of the catch block, started at `j` with
`rem = i + 1 - j` and the three temporaries built so far: the trace of its reads, and the
temporaries at the end of the loop (`none` after a read outside a sequence). -/
def truncateLoop {α : Type} (reconstructInputTrajectory_ : Bool)
    (timeTrajectory : scalar_array_t α) (stateTrajectory inputTrajectory : vector_array_t α)
    (i : Nat) :
    (rem : Nat) → (j : Nat) → scalar_array_t α × vector_array_t α × vector_array_t α →
      List (Effect α) × Option (scalar_array_t α × vector_array_t α × vector_array_t α)
  | 0, _, acc => ([], some acc)
  | rem + 1, j, (timeTemp, stateTemp, inputTemp) =>
    if j ≤ i then
      match timeTrajectory[j]? with
      | none => ([Effect.read Traj.time j, Effect.undefined], none)
      | some t =>
        match stateTrajectory[j]? with
        | none => ([Effect.read Traj.time j, Effect.read Traj.state j, Effect.undefined], none)
        | some x =>
          if reconstructInputTrajectory_ then
            match inputTrajectory[j]? with
            | none =>
              ([Effect.read Traj.time j, Effect.read Traj.state j, Effect.read Traj.input j,
                Effect.undefined], none)
            | some u =>
              let r := truncateLoop reconstructInputTrajectory_ timeTrajectory stateTrajectory
                inputTrajectory i rem (j + 1) (timeTemp ++ [t], stateTemp ++ [x], inputTemp ++ [u])
              ([Effect.read Traj.time j, Effect.read Traj.state j, Effect.read Traj.input j]
                ++ r.1, r.2)
          else
            let r := truncateLoop reconstructInputTrajectory_ timeTrajectory stateTrajectory
              inputTrajectory i rem (j + 1) (timeTemp ++ [t], stateTemp ++ [x], inputTemp)
            ([Effect.read Traj.time j, Effect.read Traj.state j] ++ r.1, r.2)
    else ([], some (timeTemp, stateTemp, inputTemp))

/-- The catch block of `checkNumericalStability` for the exception thrown at position `i`:
the `what()` line with `timeTrajectory[i]`, the copy loop, the call of `display` on the
temporaries and the untouched `postEventIndicesStock`, `controller->display()`, `throw;`. -/
def onFailure {α : Type} (settings : Rollout_Settings) (timeTrajectory : scalar_array_t α)
    (postEventIndicesStock : size_array_t) (stateTrajectory inputTrajectory : vector_array_t α)
    (i : Nat) (cause : NotFinite) : List (Effect α) :=
  let r := truncateLoop settings.reconstructInputTrajectory_ timeTrajectory stateTrajectory
    inputTrajectory i (i + 1) 0 ([], [], [])
  [Effect.read Traj.time i, Effect.cerr (Line.what cause timeTrajectory[i]?)] ++ r.1 ++
  match r.2 with
  | none => []
  | some (timeTemp, stateTemp, inputTemp) =>
    [Effect.display timeTemp postEventIndicesStock stateTemp
        (if settings.reconstructInputTrajectory_ then some inputTemp else none),
     Effect.controllerDisplay,
     Effect.rethrow cause]

/-- The scan `for (size_t i = 0; i < timeTrajectory.size(); i++)` of
`checkNumericalStability`, started at `i` with `rem = timeTrajectory.size() - i`. -/
def scanLoop {α : Type} (settings : Rollout_Settings) (timeTrajectory : scalar_array_t α)
    (postEventIndicesStock : size_array_t) (stateTrajectory inputTrajectory : vector_array_t α) :
    (rem : Nat) → (i : Nat) → List (Effect α)
  | 0, _ => []
  | rem + 1, i =>
    if i < timeTrajectory.length then
      Effect.read Traj.state i ::
      match stateTrajectory[i]? with
      | none => [Effect.undefined]
      | some x =>
        if ¬ allFinite x then
          onFailure settings timeTrajectory postEventIndicesStock stateTrajectory
            inputTrajectory i NotFinite.state
        else if settings.reconstructInputTrajectory_ then
          Effect.read Traj.input i ::
          match inputTrajectory[i]? with
          | none => [Effect.undefined]
          | some u =>
            if ¬ allFinite u then
              onFailure settings timeTrajectory postEventIndicesStock stateTrajectory
                inputTrajectory i NotFinite.input
            else
              scanLoop settings timeTrajectory postEventIndicesStock stateTrajectory
                inputTrajectory rem (i + 1)
        else
          scanLoop settings timeTrajectory postEventIndicesStock stateTrajectory
            inputTrajectory rem (i + 1)
    else []

/-- The method `RolloutBase::checkNumericalStability`: its trace. The trace is empty when the
method returns at once, and ends with `rethrow` when the exception leaves the method. -/
def checkNumericalStability {α : Type} (settings : Rollout_Settings)
    (timeTrajectory : scalar_array_t α) (postEventIndicesStock : size_array_t)
    (stateTrajectory inputTrajectory : vector_array_t α) : List (Effect α) :=
  if ¬ settings.checkNumericalStability_ then []
  else
    scanLoop settings timeTrajectory postEventIndicesStock stateTrajectory inputTrajectory
      timeTrajectory.length 0

/-- Whether a step of a trace is an `operator[]` read (and nothing observable). -/
def Effect.isRead {α : Type} : Effect α → Bool
  | Effect.read _ _ => true
  | _ => false

/-- Whether sample `i` fails the stability check: its state vector is not finite, or input
reconstruction is enabled and its input vector is not finite. -/
def failsAt {α : Type} (reconstructInputTrajectory_ : Bool)
    (stateTrajectory inputTrajectory : vector_array_t α) (i : Nat) : Bool :=
  stateTrajectory[i]?.any (fun x => !allFinite x) ||
    (reconstructInputTrajectory_ && inputTrajectory[i]?.any (fun u => !allFinite u))

/-- The quantity named when sample `i` fails: the state if the state vector is not finite,
the input otherwise. -/
def causeAt {α : Type} (stateTrajectory : vector_array_t α) (i : Nat) : NotFinite :=
  if stateTrajectory[i]?.any (fun x => !allFinite x) then NotFinite.state else NotFinite.input

/-- Whether a step of a trace is harmless for memory: a read of the time or state sequence
inside the sequence, a read of the input sequence inside the sequence while input
reconstruction is enabled, or a step that is neither a read nor `undefined`. -/
def Effect.readOk {α : Type} (reconstructInputTrajectory_ : Bool)
    (timeLength stateLength inputLength : Nat) : Effect α → Bool
  | Effect.read Traj.time idx => decide (idx < timeLength)
  | Effect.read Traj.state idx => decide (idx < stateLength)
  | Effect.read Traj.input idx => reconstructInputTrajectory_ && decide (idx < inputLength)
  | Effect.undefined => false
  | _ => true

/-- Whether a step of a trace is the marker line `+++ event took place +++`. -/
def Effect.isMarker {α : Type} : Effect α → Bool
  | Effect.cerr Line.eventTookPlace => true
  | _ => false

/-- The record of sample `k` as the claims describe it: its index, its time `t`, its state
`x` and, when an input `u` is given, its input. -/
def sampleRecord {α : Type} (k : Nat) (t : α) (x : vector_t α) (u : Option (vector_t α)) :
    List (Effect α) :=
  [Effect.cerr (Line.index k),
   Effect.read Traj.time k, Effect.cerr (Line.time (some t)),
   Effect.read Traj.state k, Effect.cerr (Line.state (some x))] ++
  match u with
  | some v => [Effect.read Traj.input k, Effect.cerr (Line.input (some v))]
  | none => []

/-- The head of the dump as the claims describe it: the trajectory length, the number of
events and, when there are events, the time stamp at each event index. -/
def dumpHeader {α : Type} (timeTrajectory : scalar_array_t α)
    (postEventIndicesStock : size_array_t) : List (Effect α) :=
  [Effect.cerr (Line.trajectoryLength timeTrajectory.length),
   Effect.cerr (Line.totalEvents postEventIndicesStock.length)] ++
  (if postEventIndicesStock = [] then []
   else
    [Effect.cerr Line.eventTimesLabel] ++
    postEventIndicesStock.flatMap
      (fun ind => [Effect.read Traj.time ind, Effect.cerr (Line.eventTime timeTrajectory[ind]?)])
    ++ [Effect.cerr Line.endl]) ++
  [Effect.cerr Line.endl]

/-- The samples from `k` on, cut into mode segments at the event indices `ps`: the records
of the samples before each event index, a marker line, and so on; after the last event
index the records of the remaining samples. -/
def segmentedDump {α : Type} (timeTrajectory : scalar_array_t α)
    (stateTrajectory : vector_array_t α) (inputTrajectory : Option (vector_array_t α)) :
    List Nat → Nat → List (Effect α)
  | [], k =>
    (List.range' k (timeTrajectory.length - k)).flatMap
      (displaySample timeTrajectory stateTrajectory inputTrajectory)
  | q :: ps, k =>
    (List.range' k (q - k)).flatMap
      (displaySample timeTrajectory stateTrajectory inputTrajectory)
    ++ [Effect.cerr Line.eventTookPlace]
    ++ segmentedDump timeTrajectory stateTrajectory inputTrajectory ps q

/-! ## Rounded arithmetic of `run` -/

/-- The adjustment of the start time with the two arithmetic operations of the source rounded
by `rnd`: the comparison `endTime - beginTime > eps` uses the rounded difference and
`first += eps` stores the rounded sum. With `rnd = id` this is `adjustStart`. -/
def adjustStartRounded {α : Type} [LinearOrderedField α] (rnd : α → α) (eps : α)
    (p : α × α) : α × α :=
  if rnd (p.2 - p.1) > eps then (rnd (p.1 + eps), p.2) else (p.2, p.2)

/-- The loop of `run` that constructs `timeIntervalArray`, with rounded arithmetic. -/
def timeIntervalArrayRounded {α : Type} [LinearOrderedField α] (rnd : α → α) (eps : α)
    (sw : scalar_array_t α) : time_interval_array_t α :=
  let numSubsystems := sw.length - 1
  (List.range numSubsystems).foldl
    (fun acc i => acc ++ [adjustStartRounded rnd eps (nominalInterval sw i)]) []

/-- The method `RolloutBase::run` with the arithmetic on scalars rounded by `rnd`, as the
source computes in doubles. Comparisons and copies of scalars are exact, so the guard and
the switching times are those of `run`. -/
def runRounded {α S ε β : Type} [LinearOrderedField α]
    (runImpl : time_interval_array_t α → S → Except ε β) (rnd : α → α) (eps : α)
    (initTime : α) (initState : S) (finalTime : α) (eventTimes : scalar_array_t α) :
    RunOutcome α S ε β :=
  if initTime > finalTime then
    { constructed := [], hookCalls := [], result := Except.error RolloutError.invalidHorizon }
  else
    let sw := switchingTimes initTime finalTime eventTimes
    let intervals := timeIntervalArrayRounded rnd eps sw
    { constructed := intervals
      hookCalls := [(intervals, initState)]
      result :=
        match runImpl intervals initState with
        | Except.ok r => Except.ok r
        | Except.error e => Except.error (RolloutError.hook e) }

/-- Rounding of a rational to the nearest integer, a tie going to the even integer. -/
def roundHalfEven (y : ℚ) : ℤ :=
  if y - ⌊y⌋ < 1 / 2 then ⌊y⌋
  else if 1 / 2 < y - ⌊y⌋ then ⌊y⌋ + 1
  else if ⌊y⌋ % 2 = 0 then ⌊y⌋
  else ⌊y⌋ + 1

/-- The spacing of the doubles around a positive `x`: `2 ^ (e - 52)` where `e` is the binary
exponent of `x`, and not below the exponent `-1022` of the subnormal doubles. -/
def ulpDouble (x : ℚ) : ℚ :=
  (2 : ℚ) ^ (max (Int.log 2 x) (-1022) - 52)

/-- The double nearest to a rational `x ≥ 0` (ties to even), for `x` below the overflow
threshold of doubles. -/
def roundDoubleNonneg (x : ℚ) : ℚ :=
  (roundHalfEven (x / ulpDouble x) : ℚ) * ulpDouble x

/-- The rounding of IEEE binary64 arithmetic (round to nearest, ties to even), on rationals
of magnitude below the overflow threshold: the result of a double operation is
`roundDouble` of its exact result. -/
def roundDouble (x : ℚ) : ℚ :=
  if x < 0 then -roundDoubleNonneg (-x) else roundDoubleNonneg x

/-! ## Facts about the search -/

theorem upper_bound_loop_spec {α : Type} [LinearOrder α] (xs : List α)
    (hs : xs.Sorted (fun a b => a ≤ b)) (val : α) :
    ∀ (len first : Nat), first + len ≤ xs.length →
      (∀ (j : Nat) (hj : j < xs.length), j < first → xs[j] ≤ val) →
      (∀ (j : Nat) (hj : j < xs.length), first + len ≤ j → val < xs[j]) →
      first ≤ upper_bound_loop xs val first len ∧
      upper_bound_loop xs val first len ≤ first + len ∧
      (∀ (j : Nat) (hj : j < xs.length), j < upper_bound_loop xs val first len → xs[j] ≤ val) ∧
      (∀ (j : Nat) (hj : j < xs.length), upper_bound_loop xs val first len ≤ j → val < xs[j]) := by
  intro len
  induction len using Nat.strong_induction_on with
  | _ len ih =>
    intro first hlen hlo hhi
    rw [upper_bound_loop]
    by_cases hpos : 0 < len
    · have hm : first + len / 2 < xs.length := by omega
      simp only [hpos, if_true, hm, dite_true]
      by_cases hv : val < xs[first + len / 2]
      · simp only [hv, if_true]
        have := ih (len / 2) (by omega) first (by omega) hlo (by
          intro j hj hle
          have hle2 : xs[first + len / 2] ≤ xs[j] := by
            rcases Nat.eq_or_lt_of_le hle with h | h
            · simp [h]
            · exact List.pairwise_iff_getElem.mp hs _ _ hm hj h
          exact lt_of_lt_of_le hv hle2)
        refine ⟨this.1, by omega, this.2.2.1, this.2.2.2⟩
      · simp only [hv, if_false]
        have := ih (len - len / 2 - 1) (by omega) (first + len / 2 + 1) (by omega) (by
          intro j hj hlt
          have hle2 : xs[j] ≤ xs[first + len / 2] := by
            rcases Nat.eq_or_lt_of_le (Nat.lt_succ_iff.mp hlt) with h | h
            · simp [h]
            · exact List.pairwise_iff_getElem.mp hs _ _ hj hm h
          exact le_trans hle2 (not_lt.mp hv)) (by
          intro j hj hle
          exact hhi j hj (by omega))
        refine ⟨by omega, by omega, this.2.2.1, this.2.2.2⟩
    · have h0 : len = 0 := by omega
      subst h0
      simp only [lt_irrefl, if_false]
      exact ⟨le_refl _, by omega, hlo, fun j hj h => hhi j hj (by omega)⟩

theorem filter_split_at {α : Type} (p : α → Bool) (xs : List α) (r : Nat)
    (hlo : ∀ x ∈ xs.take r, p x = true) (hhi : ∀ x ∈ xs.drop r, p x = false) :
    xs.filter p = xs.take r ∧ xs.filter (fun x => !p x) = xs.drop r := by
  have h1 : (xs.take r).filter p = xs.take r := List.filter_eq_self.mpr hlo
  have h2 : (xs.drop r).filter p = [] :=
    List.filter_eq_nil_iff.mpr (fun a ha => by simp [hhi a ha])
  have h3 : (xs.take r).filter (fun x => !p x) = [] :=
    List.filter_eq_nil_iff.mpr (fun a ha => by simp [hlo a ha])
  have h4 : (xs.drop r).filter (fun x => !p x) = xs.drop r :=
    List.filter_eq_self.mpr (fun a ha => by simp [hhi a ha])
  constructor
  · conv_lhs => rw [← List.take_append_drop r xs]
    rw [List.filter_append, h1, h2, List.append_nil]
  · conv_lhs => rw [← List.take_append_drop r xs]
    rw [List.filter_append, h3, h4, List.nil_append]

/-- On an ascending vector the search returns the number of elements `≤ val`: the elements
before the returned position are exactly those `≤ val`, the others are `> val`. -/
theorem upper_bound_sorted {α : Type} [LinearOrder α] (xs : List α)
    (hs : xs.Sorted (fun a b => a ≤ b)) (val : α) :
    upper_bound xs val ≤ xs.length ∧
    xs.take (upper_bound xs val) = xs.filter (fun e => decide (e ≤ val)) ∧
    xs.drop (upper_bound xs val) = xs.filter (fun e => decide (val < e)) := by
  have h := upper_bound_loop_spec xs hs val xs.length 0 (by omega)
    (fun j _ hj => absurd hj (Nat.not_lt_zero j))
    (fun j hj hle => absurd hj (by omega))
  have hlo : ∀ x ∈ xs.take (upper_bound xs val), decide (x ≤ val) = true := by
    intro x hx
    obtain ⟨i, hi, rfl⟩ := List.mem_take_iff_getElem.mp hx
    simp only [decide_eq_true_eq]
    exact h.2.2.1 i (by omega) (lt_of_lt_of_le hi (min_le_left _ _))
  have hhi : ∀ x ∈ xs.drop (upper_bound xs val), decide (x ≤ val) = false := by
    intro x hx
    obtain ⟨i, hi, rfl⟩ := List.mem_drop_iff_getElem.mp hx
    simp only [decide_eq_false_iff_not, not_le]
    exact h.2.2.2 _ (by omega) (by unfold upper_bound; omega)
  have hsplit := filter_split_at (fun e => decide (e ≤ val)) xs (upper_bound xs val) hlo hhi
  refine ⟨by simpa [upper_bound] using h.2.1, hsplit.1.symm, ?_⟩
  rw [← hsplit.2]
  congr 1
  funext e
  by_cases h : e ≤ val
  · simp [h, not_lt.mpr h]
  · simp [h, not_le.mp h]

/-- The search is monotone in the searched value on an ascending vector. -/
theorem upper_bound_mono {α : Type} [LinearOrder α] (xs : List α)
    (hs : xs.Sorted (fun a b => a ≤ b)) {a b : α} (hab : a ≤ b) :
    upper_bound xs a ≤ upper_bound xs b := by
  have ha := upper_bound_sorted xs hs a
  have hb := upper_bound_sorted xs hs b
  have hlen : (xs.take (upper_bound xs a)).length ≤ (xs.take (upper_bound xs b)).length := by
    rw [ha.2.1, hb.2.1, ← List.countP_eq_length_filter, ← List.countP_eq_length_filter]
    apply List.countP_mono_left
    intro x _ hx
    simp only [decide_eq_true_eq] at hx ⊢
    exact le_trans hx hab
  simpa [List.length_take, Nat.min_eq_left ha.1, Nat.min_eq_left hb.1] using hlen

/-- The slice of event times inserted into `switchingTimes` is the events in
`(initTime, finalTime]`, in order and with multiplicity. -/
theorem slice_eq_filter {α : Type} [LinearOrder α] (initTime finalTime : α)
    (eventTimes : List α) (hs : eventTimes.Sorted (fun a b => a ≤ b)) :
    (eventTimes.drop (upper_bound eventTimes initTime)).take
        (upper_bound eventTimes finalTime - upper_bound eventTimes initTime)
      = eventTimes.filter (inRange initTime finalTime) := by
  have hf := upper_bound_sorted eventTimes hs finalTime
  have hi := upper_bound_sorted eventTimes hs initTime
  by_cases hle : upper_bound eventTimes initTime ≤ upper_bound eventTimes finalTime
  · have hlo : ∀ x ∈ (eventTimes.take (upper_bound eventTimes finalTime)).take
        (upper_bound eventTimes initTime), decide (x ≤ initTime) = true := by
      intro x hx
      rw [List.take_take, Nat.min_eq_left hle, hi.2.1] at hx
      exact (List.mem_filter.mp hx).2
    have hhi : ∀ x ∈ (eventTimes.take (upper_bound eventTimes finalTime)).drop
        (upper_bound eventTimes initTime), decide (x ≤ initTime) = false := by
      intro x hx
      rw [List.drop_take] at hx
      have hx2 := List.mem_of_mem_take hx
      rw [hi.2.2] at hx2
      have := (List.mem_filter.mp hx2).2
      simp only [decide_eq_true_eq] at this
      simp [not_le.mpr this]
    have hsplit := filter_split_at (fun e => decide (e ≤ initTime))
      (eventTimes.take (upper_bound eventTimes finalTime)) (upper_bound eventTimes initTime)
      hlo hhi
    rw [← List.drop_take, ← hsplit.2, hf.2.1, List.filter_filter]
    congr 1
    funext e
    by_cases h : e ≤ initTime
    · simp [inRange, h, not_lt.mpr h]
    · simp [inRange, h, not_le.mp h]
  · have hlt : finalTime < initTime := by
      by_contra hcon
      exact hle (upper_bound_mono eventTimes hs (not_lt.mp hcon))
    have h0 : upper_bound eventTimes finalTime - upper_bound eventTimes initTime = 0 := by
      omega
    rw [h0, List.take_zero]
    symm
    apply List.filter_eq_nil_iff.mpr
    intro a _ ha
    simp only [inRange, Bool.and_eq_true, decide_eq_true_eq] at ha
    exact absurd (lt_of_lt_of_le ha.1 ha.2) (not_lt.mpr (le_of_lt hlt))

/-! ## Facts about the interval loop -/

theorem switchingTimes_sorted {α : Type} [LinearOrder α] (initTime finalTime : α)
    (eventTimes : List α) (hs : eventTimes.Sorted (fun a b => a ≤ b)) :
    switchingTimes initTime finalTime eventTimes
      = initTime :: (eventTimes.filter (inRange initTime finalTime) ++ [finalTime]) := by
  simp only [switchingTimes, slice_eq_filter initTime finalTime eventTimes hs]
  simp

theorem switchingTimes_length {α : Type} [LinearOrder α] (initTime finalTime : α)
    (eventTimes : List α) :
    2 ≤ (switchingTimes initTime finalTime eventTimes).length := by
  simp only [switchingTimes, List.length_append, List.length_singleton]
  omega

theorem foldl_push_eq_map {α β : Type} (f : β → α) (l : List β) (acc : List α) :
    l.foldl (fun acc i => acc ++ [f i]) acc = acc ++ l.map f := by
  induction l generalizing acc with
  | nil => simp
  | cons x l ih => simp [ih]

/-- The loop of `run` yields one adjusted interval per pair of consecutive switching times. -/
theorem timeIntervalArray_eq_map {α : Type} [LinearOrderedField α] (eps : α) (sw : List α) :
    timeIntervalArray eps sw
      = (List.range (sw.length - 1)).map (fun i => adjustStart eps (nominalInterval sw i)) := by
  simp [timeIntervalArray, foldl_push_eq_map]

theorem timeIntervalArray_length {α : Type} [LinearOrderedField α] (eps : α) (sw : List α) :
    (timeIntervalArray eps sw).length = sw.length - 1 := by
  simp [timeIntervalArray_eq_map]

theorem timeIntervalArray_getElem? {α : Type} [LinearOrderedField α] (eps : α) (sw : List α)
    (i : Nat) (hi : i < sw.length - 1) :
    (timeIntervalArray eps sw)[i]? = some (adjustStart eps (nominalInterval sw i)) := by
  simp [timeIntervalArray_eq_map, List.getElem?_map, List.getElem?_range hi]

theorem adjustStart_snd {α : Type} [LinearOrderedField α] (eps : α) (p : α × α) :
    (adjustStart eps p).2 = p.2 := by
  unfold adjustStart
  split <;> rfl

theorem nominalInterval_getElem? {α : Type} [Zero α] (sw : List α) (i : Nat)
    (hi : i + 1 < sw.length) :
    sw[i]? = some (nominalInterval sw i).1 ∧ sw[i + 1]? = some (nominalInterval sw i).2 := by
  have h1 : i < sw.length := by omega
  simp [nominalInterval, List.getD_eq_getElem?_getD, List.getElem?_eq_getElem h1,
    List.getElem?_eq_getElem hi]

theorem run_ok {α S ε β : Type} [LinearOrderedField α]
    (runImpl : time_interval_array_t α → S → Except ε β) (eps : α)
    (initTime : α) (initState : S) (finalTime : α) (eventTimes : scalar_array_t α)
    (hle : initTime ≤ finalTime) :
    (run runImpl eps initTime initState finalTime eventTimes).constructed
      = timeIntervalArray eps (switchingTimes initTime finalTime eventTimes) ∧
    (run runImpl eps initTime initState finalTime eventTimes).hookCalls
      = [(timeIntervalArray eps (switchingTimes initTime finalTime eventTimes), initState)] := by
  simp [run, not_lt.mpr hle]

theorem timeIntervalArray_cons_cons {α : Type} [LinearOrderedField α] (eps a b : α)
    (l : List α) :
    timeIntervalArray eps (a :: b :: l)
      = adjustStart eps (a, b) :: timeIntervalArray eps (b :: l) := by
  simp only [timeIntervalArray_eq_map, List.length_cons, Nat.add_sub_cancel]
  rw [List.range_succ_eq_map, List.map_cons, List.map_map]
  congr 1

theorem timeIntervalArray_singleton {α : Type} [LinearOrderedField α] (eps a : α) :
    timeIntervalArray eps [a] = [] := by
  simp [timeIntervalArray]

/-- The intervals of the scenario of the rollout test: horizon `[0, 10]`, events `3, 4, 4`. -/
theorem scenario_intervals {α : Type} [LinearOrderedField α] (eps : α)
    (h0 : 0 < eps) (h1 : eps < 1) :
    timeIntervalArray eps (switchingTimes (0 : α) 10 [3, 4, 4])
      = [(0 + eps, 3), (3 + eps, 4), (4, 4), (4 + eps, 10)] := by
  have hs : List.Sorted (fun a b : α => a ≤ b) [3, 4, 4] := by
    simp [List.Sorted]; norm_num
  have hf : List.filter (inRange (0 : α) 10) [3, 4, 4] = [3, 4, 4] := by
    simp [List.filter, inRange]; norm_num
  rw [switchingTimes_sorted _ _ _ hs, hf]
  simp only [List.cons_append, List.nil_append, timeIntervalArray_cons_cons,
    timeIntervalArray_singleton]
  have e1 : adjustStart eps ((0 : α), 3) = (0 + eps, 3) := by
    unfold adjustStart; rw [if_pos]; show (3 : α) - 0 > eps; linarith
  have e2 : adjustStart eps ((3 : α), 4) = (3 + eps, 4) := by
    unfold adjustStart; rw [if_pos]; show (4 : α) - 3 > eps; linarith
  have e3 : adjustStart eps ((4 : α), 4) = (4, 4) := by
    unfold adjustStart; rw [if_neg]; show ¬ ((4 : α) - 4 > eps); simp; linarith
  have e4 : adjustStart eps ((4 : α), 10) = (4 + eps, 10) := by
    unfold adjustStart; rw [if_pos]; show (10 : α) - 4 > eps; linarith
  rw [e1, e2, e3, e4]

theorem filter_inRange_filter_ne_init {α : Type} [LinearOrder α] (initTime finalTime : α)
    (l : List α) :
    (l.filter (fun e => decide (e ≠ initTime))).filter (inRange initTime finalTime)
      = l.filter (inRange initTime finalTime) := by
  rw [List.filter_filter]
  congr 1
  funext e
  by_cases h : initTime < e
  · simp [inRange, h, ne_of_gt h]
  · simp [inRange, h]

theorem sorted_split_top {α : Type} [LinearOrder α] (top : α) (l : List α)
    (hs : l.Sorted (fun a b => a ≤ b)) (hle : ∀ x ∈ l, x ≤ top) :
    l = l.filter (fun e => decide (e ≠ top)) ++ List.replicate (l.count top) top := by
  induction l with
  | nil => simp
  | cons a l ih =>
    have hs2 := List.sorted_cons.mp hs
    have ih2 := ih hs2.2 (fun x hx => hle x (List.mem_cons_of_mem a hx))
    by_cases ha : a = top
    · subst ha
      have hall : ∀ x ∈ l, x = a := fun x hx =>
        le_antisymm (hle x (List.mem_cons_of_mem a hx)) (hs2.1 x hx)
      have hrep : l = List.replicate l.length a := List.eq_replicate_iff.mpr ⟨rfl, hall⟩
      have hf : (a :: l).filter (fun e => decide (e ≠ a)) = [] := by
        apply List.filter_eq_nil_iff.mpr
        intro x hx
        rcases List.mem_cons.mp hx with h | h
        · simp [h]
        · simp [hall x h]
      have hc : (a :: l).count a = l.length + 1 := by
        rw [List.count_cons_self]
        congr 1
        exact List.count_eq_length.mpr (fun x hx => (hall x hx).symm)
      rw [hf, hc, List.nil_append, List.replicate_succ, ← hrep]
    · have hf : (a :: l).filter (fun e => decide (e ≠ top))
          = a :: l.filter (fun e => decide (e ≠ top)) := by
        simp [List.filter, ha]
      have hc : (a :: l).count top = l.count top := by
        rw [List.count_cons_of_ne (fun h => ha h.symm)]
      rw [hf, hc, List.cons_append, ← ih2]

theorem timeIntervalArray_replicate {α : Type} [LinearOrderedField α] (eps top : α)
    (heps : 0 ≤ eps) (m : Nat) :
    timeIntervalArray eps (top :: List.replicate m top) = List.replicate m (top, top) := by
  induction m with
  | zero => simp [timeIntervalArray_singleton]
  | succ m ih =>
    rw [List.replicate_succ, timeIntervalArray_cons_cons, ih, List.replicate_succ]
    congr 1
    unfold adjustStart
    rw [if_neg]
    simpa using heps

theorem timeIntervalArray_append_replicate {α : Type} [LinearOrderedField α] (eps top : α)
    (heps : 0 ≤ eps) (m : Nat) (l : List α) :
    timeIntervalArray eps (l ++ top :: List.replicate m top)
      = timeIntervalArray eps (l ++ [top]) ++ List.replicate m (top, top) := by
  induction l with
  | nil =>
    simp [timeIntervalArray_singleton, timeIntervalArray_replicate eps top heps m]
  | cons a l ih =>
    cases l with
    | nil =>
      simp only [List.cons_append, List.nil_append, timeIntervalArray_cons_cons,
        timeIntervalArray_singleton, timeIntervalArray_replicate eps top heps m]
    | cons b l =>
      simp only [List.cons_append, timeIntervalArray_cons_cons] at ih ⊢
      rw [ih]

theorem switchingTimes_ascending {α : Type} [LinearOrder α] (initTime finalTime : α)
    (eventTimes : List α) (hle : initTime ≤ finalTime)
    (hs : eventTimes.Sorted (fun a b => a ≤ b)) :
    (switchingTimes initTime finalTime eventTimes).Sorted (fun a b => a ≤ b) := by
  rw [switchingTimes_sorted initTime finalTime eventTimes hs]
  have hF : (eventTimes.filter (inRange initTime finalTime)).Sorted (fun a b => a ≤ b) :=
    List.Sorted.filter _ hs
  have hmem : ∀ x ∈ eventTimes.filter (inRange initTime finalTime),
      initTime ≤ x ∧ x ≤ finalTime := by
    intro x hx
    have := (List.mem_filter.mp hx).2
    simp only [inRange, Bool.and_eq_true, decide_eq_true_eq] at this
    exact ⟨le_of_lt this.1, this.2⟩
  apply List.sorted_cons.mpr
  constructor
  · intro b hb
    rcases List.mem_append.mp hb with h | h
    · exact (hmem b h).1
    · simp only [List.mem_singleton] at h
      rw [h]; exact hle
  · apply List.pairwise_append.mpr
    refine ⟨hF, List.pairwise_singleton _ _, ?_⟩
    intro a ha b hb
    simp only [List.mem_singleton] at hb
    rw [hb]; exact (hmem a ha).2

theorem nominalInterval_le {α : Type} [LinearOrderedField α] (sw : List α)
    (hs : sw.Sorted (fun a b => a ≤ b)) (i : Nat) (hi : i + 1 < sw.length) :
    (nominalInterval sw i).1 ≤ (nominalInterval sw i).2 := by
  have h1 : i < sw.length := by omega
  have hget := nominalInterval_getElem? sw i hi
  have e1 : (nominalInterval sw i).1 = sw[i] := by
    have := hget.1
    rw [List.getElem?_eq_getElem h1] at this
    exact (Option.some.inj this).symm
  have e2 : (nominalInterval sw i).2 = sw[i + 1] := by
    have := hget.2
    rw [List.getElem?_eq_getElem hi] at this
    exact (Option.some.inj this).symm
  rw [e1, e2]
  exact List.pairwise_iff_getElem.mp hs i (i + 1) h1 hi (Nat.lt_succ_self i)

theorem adjustStart_bounds {α : Type} [LinearOrderedField α] (eps : α) (p : α × α)
    (heps : 0 ≤ eps) (hp : p.1 ≤ p.2) :
    p.1 ≤ (adjustStart eps p).1 ∧ (adjustStart eps p).1 ≤ (adjustStart eps p).2 := by
  unfold adjustStart
  by_cases h : p.2 - p.1 > eps
  · rw [if_pos h]
    constructor
    · exact le_add_of_nonneg_right heps
    · show p.1 + eps ≤ p.2
      linarith
  · rw [if_neg h]
    exact ⟨hp, le_refl _⟩

theorem adjustStart_length {α : Type} [LinearOrderedField α] (eps : α) (p : α × α) :
    (adjustStart eps p).2 - (adjustStart eps p).1
      = if p.2 - p.1 > eps then p.2 - p.1 - eps else 0 := by
  unfold adjustStart
  by_cases h : p.2 - p.1 > eps
  · rw [if_pos h, if_pos h]
    show p.2 - (p.1 + eps) = p.2 - p.1 - eps
    ring
  · rw [if_neg h, if_neg h]
    exact sub_self _

/-- The entry of the constructed list at position `i`, for a call that passes the guard. -/
theorem run_constructed_getElem? {α S ε β : Type} [LinearOrderedField α]
    (runImpl : time_interval_array_t α → S → Except ε β) (eps : α)
    (initTime : α) (initState : S) (finalTime : α) (eventTimes : scalar_array_t α)
    (hle : initTime ≤ finalTime) (i : Nat) (iv : α × α)
    (hiv : (run runImpl eps initTime initState finalTime eventTimes).constructed[i]? = some iv) :
    i + 1 < (switchingTimes initTime finalTime eventTimes).length ∧
    iv = adjustStart eps (nominalInterval (switchingTimes initTime finalTime eventTimes) i) := by
  rw [(run_ok runImpl eps initTime initState finalTime eventTimes hle).1] at hiv
  have hi : i < (switchingTimes initTime finalTime eventTimes).length - 1 := by
    have := (List.getElem?_eq_some_iff.mp hiv).1
    rwa [timeIntervalArray_length] at this
  rw [timeIntervalArray_getElem? eps _ i hi] at hiv
  exact ⟨by omega, (Option.some.inj hiv).symm⟩

/-- From ascending switching times the loop builds intervals whose stored starts and whose
ends are ascending, none below the first switching time. -/
theorem timeIntervalArray_ascending {α : Type} [LinearOrderedField α] (eps : α)
    (heps : 0 ≤ eps) :
    ∀ (l : List α) (a : α), (a :: l).Sorted (fun x y => x ≤ y) →
      (∀ iv ∈ timeIntervalArray eps (a :: l), a ≤ iv.1 ∧ a ≤ iv.2) ∧
      ((timeIntervalArray eps (a :: l)).map Prod.fst).Sorted (fun x y => x ≤ y) ∧
      ((timeIntervalArray eps (a :: l)).map Prod.snd).Sorted (fun x y => x ≤ y) := by
  intro l
  induction l with
  | nil =>
    intro a _
    simp [timeIntervalArray_singleton]
  | cons b l ih =>
    intro a hs
    have hs2 := List.sorted_cons.mp hs
    have hab : a ≤ b := hs2.1 b (List.mem_cons_self b l)
    obtain ⟨hmem, hfst, hsnd⟩ := ih b hs2.2
    have hadj := adjustStart_bounds eps (a, b) heps hab
    have hadj2 : (adjustStart eps (a, b)).2 = b := adjustStart_snd eps (a, b)
    rw [timeIntervalArray_cons_cons]
    refine ⟨?_, ?_, ?_⟩
    · intro iv hiv
      rcases List.mem_cons.mp hiv with h | h
      · rw [h]
        exact ⟨hadj.1, by rw [hadj2]; exact hab⟩
      · exact ⟨le_trans hab (hmem iv h).1, le_trans hab (hmem iv h).2⟩
    · rw [List.map_cons]
      apply List.sorted_cons.mpr
      refine ⟨?_, hfst⟩
      intro y hy
      obtain ⟨iv, hiv, rfl⟩ := List.mem_map.mp hy
      have h1 : (adjustStart eps (a, b)).1 ≤ b := by
        have := hadj.2
        rwa [hadj2] at this
      exact le_trans h1 (hmem iv hiv).1
    · rw [List.map_cons]
      apply List.sorted_cons.mpr
      refine ⟨?_, hsnd⟩
      intro y hy
      obtain ⟨iv, hiv, rfl⟩ := List.mem_map.mp hy
      rw [hadj2]
      exact (hmem iv hiv).2

theorem adjustStart_length_bounds {α : Type} [LinearOrderedField α] (eps : α) (p : α × α)
    (heps : 0 ≤ eps) (hp : p.1 ≤ p.2) :
    p.2 - p.1 - eps ≤ (adjustStart eps p).2 - (adjustStart eps p).1 ∧
    (adjustStart eps p).2 - (adjustStart eps p).1 ≤ p.2 - p.1 := by
  rw [adjustStart_length]
  by_cases h : p.2 - p.1 > eps
  · rw [if_pos h]
    exact ⟨le_refl _, by linarith⟩
  · rw [if_neg h]
    have := not_lt.mp h
    exact ⟨by linarith, by linarith⟩

/-- The stored lengths of the intervals built from ascending switching times `a, m, z` add up
to at most `z - a` and to at least `z - a` minus one `eps` per interval. -/
theorem timeIntervalArray_sum_bounds {α : Type} [LinearOrderedField α] (eps : α)
    (heps : 0 ≤ eps) :
    ∀ (m : List α) (a z : α), (a :: (m ++ [z])).Sorted (fun x y => x ≤ y) →
      z - a - ((m.length : α) + 1) * eps
        ≤ ((timeIntervalArray eps (a :: (m ++ [z]))).map (fun iv => iv.2 - iv.1)).sum ∧
      ((timeIntervalArray eps (a :: (m ++ [z]))).map (fun iv => iv.2 - iv.1)).sum ≤ z - a := by
  intro m
  induction m with
  | nil =>
    intro a z hs
    have haz : a ≤ z := (List.sorted_cons.mp hs).1 z (by simp)
    have hb := adjustStart_length_bounds eps (a, z) heps haz
    simp only [List.nil_append, timeIntervalArray_cons_cons, timeIntervalArray_singleton,
      List.map_cons, List.map_nil, List.sum_cons, List.sum_nil, add_zero, List.length_nil,
      Nat.cast_zero, zero_add, one_mul]
    exact hb
  | cons b m ih =>
    intro a z hs
    have hs2 := List.sorted_cons.mp hs
    have hab : a ≤ b := hs2.1 b (by simp)
    have hb := adjustStart_length_bounds eps (a, b) heps hab
    have hrec := ih b z hs2.2
    simp only [List.cons_append, timeIntervalArray_cons_cons, List.map_cons, List.sum_cons,
      List.length_cons, Nat.cast_add, Nat.cast_one] at hrec ⊢
    simp only at hb
    constructor
    · linarith [hb.1, hrec.1]
    · linarith [hb.2, hrec.2]

/-! ## Interval builder: the claims -/

/-- C1 (interval coverage). For `initTime ≤ finalTime` and ascending event times, the nominal
boundaries used by `run` are `initTime`, the event times with `initTime < e ≤ finalTime` in
order and with multiplicity, then `finalTime`; the hook receives the constructed list; there
is one interval per pair of consecutive boundaries; interval `i` is the adjusted pair
`(boundary i, boundary i + 1)`, its end is boundary `i + 1`, the nominal begin of the first
interval is `initTime` and the nominal begin of every later interval is the end of the
interval before it. -/
theorem run_interval_coverage {α S ε β : Type} [LinearOrderedField α]
    (runImpl : time_interval_array_t α → S → Except ε β) (eps : α)
    (initTime : α) (initState : S) (finalTime : α) (eventTimes : scalar_array_t α)
    (hle : initTime ≤ finalTime) (hs : eventTimes.Sorted (fun a b => a ≤ b)) :
    let sw := switchingTimes initTime finalTime eventTimes
    let out := run runImpl eps initTime initState finalTime eventTimes
    sw = initTime :: (eventTimes.filter (inRange initTime finalTime) ++ [finalTime]) ∧
    out.hookCalls = [(out.constructed, initState)] ∧
    out.constructed.length + 1 = sw.length ∧
    (nominalInterval sw 0).1 = initTime ∧
    (∀ i, i < out.constructed.length →
      out.constructed[i]? = some (adjustStart eps (nominalInterval sw i)) ∧
      sw[i]? = some (nominalInterval sw i).1 ∧
      sw[i + 1]? = some (nominalInterval sw i).2 ∧
      (adjustStart eps (nominalInterval sw i)).2 = (nominalInterval sw i).2) ∧
    (∀ i p, out.constructed[i]? = some p → i + 1 < out.constructed.length →
      (nominalInterval sw (i + 1)).1 = p.2) := by
  intro sw out
  have hrun := run_ok runImpl eps initTime initState finalTime eventTimes hle
  have hlen : (timeIntervalArray eps sw).length = sw.length - 1 :=
    timeIntervalArray_length eps sw
  have h2 : 2 ≤ sw.length := switchingTimes_length initTime finalTime eventTimes
  have hsw : sw = initTime :: (eventTimes.filter (inRange initTime finalTime) ++ [finalTime]) :=
    switchingTimes_sorted initTime finalTime eventTimes hs
  have hc : out.constructed = timeIntervalArray eps sw := hrun.1
  have hk : out.hookCalls = [(timeIntervalArray eps sw, initState)] := hrun.2
  clear_value sw out
  refine ⟨hsw, ?_, ?_, ?_, ?_, ?_⟩
  · rw [hc]; exact hk
  · rw [hc, hlen]; omega
  · rw [hsw]; simp [nominalInterval]
  · intro i hi
    rw [hc, hlen] at hi
    have hi2 : i + 1 < sw.length := by omega
    refine ⟨?_, (nominalInterval_getElem? sw i hi2).1, (nominalInterval_getElem? sw i hi2).2,
      adjustStart_snd eps _⟩
    rw [hc]
    exact timeIntervalArray_getElem? eps sw i hi
  · intro i p hp hi
    rw [hc, hlen] at hi
    rw [hc, timeIntervalArray_getElem? eps sw i (by omega)] at hp
    have hp2 : p = adjustStart eps (nominalInterval sw i) := (Option.some.inj hp).symm
    rw [hp2, adjustStart_snd]
    simp [nominalInterval]

/-- Witness of C1 at `initTime = 0`, `finalTime = 10`, events `[0, 3, 4, 4, 11]`. -/
theorem run_interval_coverage_witness :
    switchingTimes (0 : ℚ) 10 [0, 3, 4, 4, 11]
      = 0 :: (List.filter (inRange (0 : ℚ) 10) [0, 3, 4, 4, 11] ++ [10]) :=
  (run_interval_coverage (fun (_ : time_interval_array_t ℚ) (_ : Unit) =>
      (Except.ok () : Except Unit Unit)) (1 / 1000000) 0 () 10 [0, 3, 4, 4, 11]
    (by norm_num) (by simp [List.Sorted]; norm_num)).1

/-- C3 (horizon precondition). The call `run` fails with the horizon error exactly when
`initTime > finalTime`, whatever the event times, the initial state and the hook; and when
it does, no interval has been constructed and the hook has not been invoked. -/
theorem run_invalidHorizon_iff {α S ε β : Type} [LinearOrderedField α]
    (runImpl : time_interval_array_t α → S → Except ε β) (eps : α)
    (initTime : α) (initState : S) (finalTime : α) (eventTimes : scalar_array_t α) :
    ((run runImpl eps initTime initState finalTime eventTimes).result
        = Except.error RolloutError.invalidHorizon ↔ initTime > finalTime) ∧
    (initTime > finalTime →
      (run runImpl eps initTime initState finalTime eventTimes).constructed = [] ∧
      (run runImpl eps initTime initState finalTime eventTimes).hookCalls = []) := by
  constructor
  · constructor
    · intro h
      by_contra hgt
      simp only [run, if_neg hgt] at h
      split at h <;> simp at h
    · intro hgt
      simp [run, hgt]
  · intro hgt
    simp [run, hgt]

/-- C5 (cardinality). For `initTime ≤ finalTime` and ascending event times, the number of
intervals built by `run` is the number of event times with `initTime < e ≤ finalTime`,
counted with multiplicity, plus one; the list is never empty. -/
theorem run_cardinality {α S ε β : Type} [LinearOrderedField α]
    (runImpl : time_interval_array_t α → S → Except ε β) (eps : α)
    (initTime : α) (initState : S) (finalTime : α) (eventTimes : scalar_array_t α)
    (hle : initTime ≤ finalTime) (hs : eventTimes.Sorted (fun a b => a ≤ b)) :
    (run runImpl eps initTime initState finalTime eventTimes).constructed.length
      = eventTimes.countP (inRange initTime finalTime) + 1 ∧
    (run runImpl eps initTime initState finalTime eventTimes).constructed ≠ [] := by
  have hrun := run_ok runImpl eps initTime initState finalTime eventTimes hle
  have hlen : (run runImpl eps initTime initState finalTime eventTimes).constructed.length
      = eventTimes.countP (inRange initTime finalTime) + 1 := by
    rw [hrun.1, timeIntervalArray_length, switchingTimes_sorted initTime finalTime eventTimes hs,
      List.countP_eq_length_filter]
    simp
  refine ⟨hlen, ?_⟩
  intro h
  rw [h] at hlen
  simp at hlen

/-- Witness of C3 at `initTime = 1 > finalTime = 0`. -/
theorem run_invalidHorizon_iff_witness :
    (1 : ℚ) > 0 ∧
    (run (fun (_ : time_interval_array_t ℚ) (_ : Unit) => (Except.ok () : Except Unit Unit))
      (1 / 1000000) 1 () 0 [3, 4, 4]).constructed = [] ∧
    (run (fun (_ : time_interval_array_t ℚ) (_ : Unit) => (Except.ok () : Except Unit Unit))
      (1 / 1000000) 1 () 0 [3, 4, 4]).hookCalls = [] :=
  ⟨by norm_num, (run_invalidHorizon_iff _ _ _ _ _ _).2 (by norm_num)⟩

/-- Witness of C5 at `initTime = finalTime = 4` with events `3, 4, 4`. -/
theorem run_cardinality_witness :
    (run (fun (_ : time_interval_array_t ℚ) (_ : Unit) => (Except.ok () : Except Unit Unit))
      (1 / 1000000) 4 () 4 [3, 4, 4]).constructed.length
      = List.countP (inRange (4 : ℚ) 4) [3, 4, 4] + 1 :=
  (run_cardinality _ _ _ _ _ _ (le_refl _) (by simp [List.Sorted]; norm_num)).1

/-- C6 (event-boundary inclusion rule). For `initTime < finalTime`, weak epsilon `eps > 0` and
ascending event times: two ascending event sequences that differ only in events equal to
`initTime` give the same interval list (such events are excluded), and the event sequence
gives the list of the sequence without its events equal to `finalTime`, followed by one
interval `(finalTime, finalTime)` for each event equal to `finalTime` (they are included). -/
theorem run_event_boundary_rule {α S ε β : Type} [LinearOrderedField α]
    (runImpl : time_interval_array_t α → S → Except ε β) (eps : α)
    (initTime : α) (initState : S) (finalTime : α) (eventTimes : scalar_array_t α)
    (hlt : initTime < finalTime) (heps : 0 < eps)
    (hs : eventTimes.Sorted (fun a b => a ≤ b)) :
    (∀ eventTimes2 : scalar_array_t α, eventTimes2.Sorted (fun a b => a ≤ b) →
      eventTimes2.filter (fun e => decide (e ≠ initTime))
        = eventTimes.filter (fun e => decide (e ≠ initTime)) →
      (run runImpl eps initTime initState finalTime eventTimes2).constructed
        = (run runImpl eps initTime initState finalTime eventTimes).constructed) ∧
    (run runImpl eps initTime initState finalTime eventTimes).constructed
      = (run runImpl eps initTime initState finalTime
          (eventTimes.filter (fun e => decide (e ≠ finalTime)))).constructed
        ++ List.replicate (eventTimes.count finalTime) (finalTime, finalTime) := by
  have hle := le_of_lt hlt
  constructor
  · intro eventTimes2 hs2 hsame
    rw [(run_ok runImpl eps initTime initState finalTime eventTimes2 hle).1,
      (run_ok runImpl eps initTime initState finalTime eventTimes hle).1,
      switchingTimes_sorted _ _ _ hs2, switchingTimes_sorted _ _ _ hs,
      ← filter_inRange_filter_ne_init initTime finalTime eventTimes2,
      ← filter_inRange_filter_ne_init initTime finalTime eventTimes, hsame]
  · have hs3 : (eventTimes.filter (fun e => decide (e ≠ finalTime))).Sorted
        (fun a b => a ≤ b) := List.Sorted.filter _ hs
    have hsF : (eventTimes.filter (inRange initTime finalTime)).Sorted (fun a b => a ≤ b) :=
      List.Sorted.filter _ hs
    have hleF : ∀ x ∈ eventTimes.filter (inRange initTime finalTime), x ≤ finalTime := by
      intro x hx
      have := (List.mem_filter.mp hx).2
      simp only [inRange, Bool.and_eq_true, decide_eq_true_eq] at this
      exact this.2
    have hsplit := sorted_split_top finalTime _ hsF hleF
    have hcount : (eventTimes.filter (inRange initTime finalTime)).count finalTime
        = eventTimes.count finalTime := by
      rw [List.count_filter]
      simp [inRange, hlt]
    have hcomm : (eventTimes.filter (inRange initTime finalTime)).filter
          (fun e => decide (e ≠ finalTime))
        = (eventTimes.filter (fun e => decide (e ≠ finalTime))).filter
          (inRange initTime finalTime) := by
      rw [List.filter_filter, List.filter_filter]
      congr 1
      funext e
      exact Bool.and_comm _ _
    rw [hcount, hcomm] at hsplit
    rw [(run_ok runImpl eps initTime initState finalTime eventTimes hle).1,
      (run_ok runImpl eps initTime initState finalTime _ hle).1,
      switchingTimes_sorted _ _ _ hs, switchingTimes_sorted _ _ _ hs3, hsplit]
    have hshape : ∀ (l : List α) (m : Nat),
        initTime :: ((l ++ List.replicate m finalTime) ++ [finalTime])
          = (initTime :: l) ++ finalTime :: List.replicate m finalTime := by
      intro l m
      rw [List.append_assoc, ← List.replicate_succ', List.replicate_succ, List.cons_append]
    rw [hshape, timeIntervalArray_append_replicate eps finalTime (le_of_lt heps)]
    rfl

/-- Witness of C6 at `initTime = 0`, `finalTime = 10`, events `0, 3, 10, 10`. -/
theorem run_event_boundary_rule_witness :
    (run (fun (_ : time_interval_array_t ℚ) (_ : Unit) => (Except.ok () : Except Unit Unit))
      (1 / 1000000) 0 () 10 [0, 3, 10, 10]).constructed
    = (run (fun (_ : time_interval_array_t ℚ) (_ : Unit) => (Except.ok () : Except Unit Unit))
        (1 / 1000000) 0 () 10
        (List.filter (fun e => decide (e ≠ (10 : ℚ))) [0, 3, 10, 10])).constructed
      ++ List.replicate (List.count (10 : ℚ) [0, 3, 10, 10]) (10, 10) :=
  (run_event_boundary_rule _ (1 / 1000000 : ℚ) 0 () 10 [0, 3, 10, 10] (by norm_num)
    (by norm_num) (by simp [List.Sorted]; norm_num)).2

/-! ## Stability supervisor: facts about the loops -/

theorem outcome_append_rethrow {α : Type} (tr : List (Effect α)) (a b : Effect α)
    (c : NotFinite) :
    outcome (tr ++ [a, b, Effect.rethrow c]) = Outcome.threw c := by
  have h : tr ++ [a, b, Effect.rethrow c] = (tr ++ [a, b]) ++ [Effect.rethrow c] := by simp
  rw [h]
  simp only [outcome, List.getLast?_concat]

theorem outcome_of_reads {α : Type} (tr : List (Effect α))
    (h : ∀ e ∈ tr, e.isRead = true) : outcome tr = Outcome.returned := by
  unfold outcome
  cases hl : tr.getLast? with
  | none => rfl
  | some e =>
    obtain ⟨hne, he⟩ := List.mem_getLast?_eq_getLast hl
    have hr := h e (he ▸ List.getLast_mem hne)
    cases e <;> simp_all [Effect.isRead]

/-- The copy loop, started with the first `j` samples already copied, ends with the first
`i + 1` samples copied and performs reads only. -/
theorem truncateLoop_spec {α : Type} (rc : Bool) (timeTrajectory : scalar_array_t α)
    (stateTrajectory inputTrajectory : vector_array_t α) (i : Nat)
    (ht : i < timeTrajectory.length) (hx : i < stateTrajectory.length)
    (hu : rc = true → i < inputTrajectory.length) :
    ∀ (rem j : Nat), j + rem = i + 1 →
      (truncateLoop rc timeTrajectory stateTrajectory inputTrajectory i rem j
        (timeTrajectory.take j, stateTrajectory.take j,
          if rc then inputTrajectory.take j else [])).2
        = some (timeTrajectory.take (i + 1), stateTrajectory.take (i + 1),
            if rc then inputTrajectory.take (i + 1) else []) ∧
      ∀ e ∈ (truncateLoop rc timeTrajectory stateTrajectory inputTrajectory i rem j
        (timeTrajectory.take j, stateTrajectory.take j,
          if rc then inputTrajectory.take j else [])).1, e.isRead = true := by
  intro rem
  induction rem with
  | zero =>
    intro j hj
    have : j = i + 1 := by omega
    subst this
    simp [truncateLoop]
  | succ rem ih =>
    intro j hj
    have hji : j ≤ i := by omega
    have h1 : timeTrajectory[j]? = some timeTrajectory[j] := List.getElem?_eq_getElem (by omega)
    have h2 : stateTrajectory[j]? = some stateTrajectory[j] :=
      List.getElem?_eq_getElem (by omega)
    have ihj := ih (j + 1) (by omega)
    cases rc with
    | false =>
      simp only [truncateLoop, hji, if_true, h1, h2, Bool.false_eq_true, if_false] at ihj ⊢
      rw [List.take_succ, List.take_succ, h1, h2] at ihj
      simp only [Option.toList] at ihj
      refine ⟨ihj.1, ?_⟩
      intro e he
      simp only [List.cons_append, List.nil_append, List.mem_cons] at he
      rcases he with he | he | he
      · rw [he]; rfl
      · rw [he]; rfl
      · exact ihj.2 e he
    | true =>
      have hju : j < inputTrajectory.length := by
        have := hu rfl
        omega
      have h3 : inputTrajectory[j]? = some inputTrajectory[j] := List.getElem?_eq_getElem hju
      simp only [truncateLoop, hji, if_true, h1, h2, h3] at ihj ⊢
      rw [List.take_succ, List.take_succ, List.take_succ, h1, h2, h3] at ihj
      simp only [Option.toList] at ihj
      refine ⟨ihj.1, ?_⟩
      intro e he
      simp only [List.cons_append, List.nil_append, List.mem_cons] at he
      rcases he with he | he | he | he
      · rw [he]; rfl
      · rw [he]; rfl
      · rw [he]; rfl
      · exact ihj.2 e he

/-- The catch block at position `i`, when the sequences reach position `i`: the `what()` line
with the time stamp at `i`, reads, then the dump of the first `i + 1` samples, the
controller report and the rethrow. -/
theorem onFailure_spec {α : Type} (settings : Rollout_Settings)
    (timeTrajectory : scalar_array_t α) (postEventIndicesStock : size_array_t)
    (stateTrajectory inputTrajectory : vector_array_t α) (i : Nat) (cause : NotFinite)
    (ht : i < timeTrajectory.length) (hx : i < stateTrajectory.length)
    (hu : settings.reconstructInputTrajectory_ = true → i < inputTrajectory.length) :
    ∃ (mid : List (Effect α)) (t : α),
      timeTrajectory[i]? = some t ∧
      onFailure settings timeTrajectory postEventIndicesStock stateTrajectory inputTrajectory
          i cause
        = [Effect.read Traj.time i, Effect.cerr (Line.what cause (some t))] ++ mid ++
          [Effect.display (timeTrajectory.take (i + 1)) postEventIndicesStock
              (stateTrajectory.take (i + 1))
              (if settings.reconstructInputTrajectory_ then some (inputTrajectory.take (i + 1))
                else none),
            Effect.controllerDisplay, Effect.rethrow cause] ∧
      ∀ e ∈ mid, e.isRead = true := by
  have hspec := truncateLoop_spec settings.reconstructInputTrajectory_ timeTrajectory
    stateTrajectory inputTrajectory i ht hx hu (i + 1) 0 (by omega)
  have h0 : (timeTrajectory.take 0, stateTrajectory.take 0,
      if settings.reconstructInputTrajectory_ then inputTrajectory.take 0 else [])
      = (([], [], []) : scalar_array_t α × vector_array_t α × vector_array_t α) := by
    simp
  rw [h0] at hspec
  have h1 : timeTrajectory[i]? = some timeTrajectory[i] := List.getElem?_eq_getElem ht
  refine ⟨_, timeTrajectory[i], h1, ?_, hspec.2⟩
  unfold onFailure
  simp only [hspec.1, h1]
  cases settings.reconstructInputTrajectory_ <;> simp

/-- The scan started at `i0` reaches the first failing position `i` with reads only and then
runs the catch block for `i`. -/
theorem scanLoop_spec {α : Type} (settings : Rollout_Settings)
    (timeTrajectory : scalar_array_t α) (postEventIndicesStock : size_array_t)
    (stateTrajectory inputTrajectory : vector_array_t α) (i : Nat)
    (hi : i < timeTrajectory.length)
    (hst : stateTrajectory.length = timeTrajectory.length)
    (hin : settings.reconstructInputTrajectory_ = true →
      inputTrajectory.length = timeTrajectory.length)
    (hat : failsAt settings.reconstructInputTrajectory_ stateTrajectory inputTrajectory i = true) :
    ∀ (rem i0 : Nat), i0 + rem = timeTrajectory.length → i0 ≤ i →
      (∀ j, i0 ≤ j → j < i →
        failsAt settings.reconstructInputTrajectory_ stateTrajectory inputTrajectory j = false) →
      ∃ pre : List (Effect α),
        scanLoop settings timeTrajectory postEventIndicesStock stateTrajectory inputTrajectory
            rem i0
          = pre ++ onFailure settings timeTrajectory postEventIndicesStock stateTrajectory
              inputTrajectory i (causeAt stateTrajectory i) ∧
        ∀ e ∈ pre, e.isRead = true := by
  intro rem
  induction rem with
  | zero =>
    intro i0 h0 hle _
    omega
  | succ rem ih =>
    intro i0 h0 hle hbefore
    have hi0 : i0 < timeTrajectory.length := by omega
    have hx0 : i0 < stateTrajectory.length := by omega
    have hsx : stateTrajectory[i0]? = some stateTrajectory[i0] := List.getElem?_eq_getElem hx0
    rcases Nat.eq_or_lt_of_le hle with heq | hlt
    · subst heq
      by_cases hfin : allFinite stateTrajectory[i0] = true
      · have hfail := hat
        simp only [failsAt, hsx, Option.any, hfin, Bool.not_true, Bool.false_or,
          Bool.and_eq_true] at hfail
        have hu0 : i0 < inputTrajectory.length := by
          have := hin hfail.1
          omega
        have hsu : inputTrajectory[i0]? = some inputTrajectory[i0] :=
          List.getElem?_eq_getElem hu0
        have hnu : allFinite inputTrajectory[i0] = false := by
          have := hfail.2
          simpa [hsu, Option.any] using this
        refine ⟨[Effect.read Traj.state i0, Effect.read Traj.input i0], ?_, ?_⟩
        · simp [scanLoop, hi0, hsx, hfin, hfail.1, hsu, hnu, causeAt, Option.any]
        · intro e he
          simp only [List.mem_cons, List.mem_singleton, List.not_mem_nil, or_false] at he
          rcases he with he | he <;> rw [he] <;> rfl
      · refine ⟨[Effect.read Traj.state i0], ?_, ?_⟩
        · simp [scanLoop, hi0, hsx, hfin, causeAt, Option.any]
        · intro e he
          simp only [List.mem_singleton] at he
          rw [he]; rfl
    · have hclean := hbefore i0 (le_refl _) hlt
      simp only [failsAt, hsx, Option.any, Bool.or_eq_false_iff, Bool.not_eq_false',
        Bool.and_eq_false_imp] at hclean
      obtain ⟨pre, hpre, hreads⟩ := ih (i0 + 1) (by omega) (by omega)
        (fun j hj hji => hbefore j (by omega) hji)
      cases hrc : settings.reconstructInputTrajectory_ with
      | false =>
        refine ⟨Effect.read Traj.state i0 :: pre, ?_, ?_⟩
        · simp [scanLoop, hi0, hsx, hclean.1, hrc, hpre]
        · intro e he
          rcases List.mem_cons.mp he with he | he
          · rw [he]; rfl
          · exact hreads e he
      | true =>
        have hu0 : i0 < inputTrajectory.length := by
          have := hin hrc
          omega
        have hsu : inputTrajectory[i0]? = some inputTrajectory[i0] :=
          List.getElem?_eq_getElem hu0
        have hfu : allFinite inputTrajectory[i0] = true := by
          have := hclean.2 hrc
          simpa [hsu, Option.any] using this
        refine ⟨Effect.read Traj.state i0 :: Effect.read Traj.input i0 :: pre, ?_, ?_⟩
        · simp [scanLoop, hi0, hsx, hclean.1, hrc, hsu, hfu, hpre]
        · intro e he
          rcases List.mem_cons.mp he with he | he
          · rw [he]; rfl
          · rcases List.mem_cons.mp he with he | he
            · rw [he]; rfl
            · exact hreads e he

/-- The scan over samples none of which fails performs reads only. -/
theorem scanLoop_clean {α : Type} (settings : Rollout_Settings)
    (timeTrajectory : scalar_array_t α) (postEventIndicesStock : size_array_t)
    (stateTrajectory inputTrajectory : vector_array_t α)
    (hst : stateTrajectory.length = timeTrajectory.length)
    (hin : settings.reconstructInputTrajectory_ = true →
      inputTrajectory.length = timeTrajectory.length) :
    ∀ (rem i0 : Nat), i0 + rem = timeTrajectory.length →
      (∀ j, i0 ≤ j → j < timeTrajectory.length →
        failsAt settings.reconstructInputTrajectory_ stateTrajectory inputTrajectory j = false) →
      ∀ e ∈ scanLoop settings timeTrajectory postEventIndicesStock stateTrajectory
        inputTrajectory rem i0, e.isRead = true := by
  intro rem
  induction rem with
  | zero =>
    intro i0 _ _ e he
    simp [scanLoop] at he
  | succ rem ih =>
    intro i0 h0 hclean e he
    have hi0 : i0 < timeTrajectory.length := by omega
    have hx0 : i0 < stateTrajectory.length := by omega
    have hsx : stateTrajectory[i0]? = some stateTrajectory[i0] := List.getElem?_eq_getElem hx0
    have hc := hclean i0 (le_refl _) hi0
    simp only [failsAt, hsx, Option.any, Bool.or_eq_false_iff, Bool.not_eq_false',
      Bool.and_eq_false_imp] at hc
    have ihn := ih (i0 + 1) (by omega) (fun j hj hjn => hclean j (by omega) hjn)
    cases hrc : settings.reconstructInputTrajectory_ with
    | false =>
      simp only [scanLoop, hi0, if_true, hsx, hc.1, not_true_eq_false, if_false, hrc,
        Bool.false_eq_true, List.mem_cons] at he
      rcases he with he | he
      · rw [he]; rfl
      · exact ihn e he
    | true =>
      have hu0 : i0 < inputTrajectory.length := by
        have := hin hrc
        omega
      have hsu : inputTrajectory[i0]? = some inputTrajectory[i0] :=
        List.getElem?_eq_getElem hu0
      have hfu : allFinite inputTrajectory[i0] = true := by
        have := hc.2 hrc
        simpa [hsu, Option.any] using this
      simp only [scanLoop, hi0, if_true, hsx, hc.1, not_true_eq_false, if_false, hrc,
        hsu, hfu, List.mem_cons] at he
      rcases he with he | he | he
      · rw [he]; rfl
      · rw [he]; rfl
      · exact ihn e he

/-- The whole trace of the check when `i` is the first failing position. -/
theorem checkNumericalStability_first_failure {α : Type} (settings : Rollout_Settings)
    (timeTrajectory : scalar_array_t α) (postEventIndicesStock : size_array_t)
    (stateTrajectory inputTrajectory : vector_array_t α) (i : Nat)
    (hen : settings.checkNumericalStability_ = true)
    (hst : stateTrajectory.length = timeTrajectory.length)
    (hin : inputTrajectory.length = timeTrajectory.length)
    (hi : i < timeTrajectory.length)
    (hbefore : ∀ j, j < i →
      failsAt settings.reconstructInputTrajectory_ stateTrajectory inputTrajectory j = false)
    (hat : failsAt settings.reconstructInputTrajectory_ stateTrajectory inputTrajectory i = true) :
    ∃ (pre mid : List (Effect α)) (t : α),
      timeTrajectory[i]? = some t ∧
      checkNumericalStability settings timeTrajectory postEventIndicesStock stateTrajectory
          inputTrajectory
        = pre ++ [Effect.read Traj.time i,
            Effect.cerr (Line.what (causeAt stateTrajectory i) (some t))] ++ mid ++
          [Effect.display (timeTrajectory.take (i + 1)) postEventIndicesStock
              (stateTrajectory.take (i + 1))
              (if settings.reconstructInputTrajectory_ then some (inputTrajectory.take (i + 1))
                else none),
            Effect.controllerDisplay, Effect.rethrow (causeAt stateTrajectory i)] ∧
      (∀ e ∈ pre ++ mid, e.isRead = true) := by
  obtain ⟨pre, hpre, hpreads⟩ := scanLoop_spec settings timeTrajectory postEventIndicesStock
    stateTrajectory inputTrajectory i hi hst (fun _ => hin) hat timeTrajectory.length 0
    (by omega) (Nat.zero_le i) (fun j _ hj => hbefore j hj)
  obtain ⟨mid, t, ht, hmid, hmreads⟩ := onFailure_spec settings timeTrajectory
    postEventIndicesStock stateTrajectory inputTrajectory i (causeAt stateTrajectory i)
    hi (by omega) (fun _ => by omega)
  refine ⟨pre, mid, t, ht, ?_, ?_⟩
  · unfold checkNumericalStability
    rw [if_neg (by simp [hen]), hpre, hmid]
    simp only [List.append_assoc]
  · intro e he
    rcases List.mem_append.mp he with h | h
    · exact hpreads e h
    · exact hmreads e h

/-- The check with no failing position performs reads only. -/
theorem checkNumericalStability_clean {α : Type} (settings : Rollout_Settings)
    (timeTrajectory : scalar_array_t α) (postEventIndicesStock : size_array_t)
    (stateTrajectory inputTrajectory : vector_array_t α)
    (hst : stateTrajectory.length = timeTrajectory.length)
    (hin : inputTrajectory.length = timeTrajectory.length)
    (hclean : ∀ j, j < timeTrajectory.length →
      failsAt settings.reconstructInputTrajectory_ stateTrajectory inputTrajectory j = false) :
    ∀ e ∈ checkNumericalStability settings timeTrajectory postEventIndicesStock
      stateTrajectory inputTrajectory, e.isRead = true := by
  intro e he
  unfold checkNumericalStability at he
  split at he
  · simp at he
  · exact scanLoop_clean settings timeTrajectory postEventIndicesStock stateTrajectory
      inputTrajectory hst (fun _ => hin) timeTrajectory.length 0 (by omega)
      (fun j _ hj => hclean j hj) e he

/-! ## Stability supervisor: the claims -/

/-- C7 (truncation correctness). With the check enabled and time, state and input sequences
of one length, let `i` be the first position whose state vector is not finite or, with input
reconstruction enabled, whose input vector is not finite. Then the trace of
`checkNumericalStability` is: reads, the `what()` line with the time stamp at `i`, reads, the
call of `display` on the first `i + 1` time stamps and states (and the first `i + 1` inputs
exactly when input reconstruction is enabled, no input sequence otherwise) and the
unchanged event index set, the controller report, and the rethrow. The sequences handed
over have length `i + 1` and agree with the originals at every position `j ≤ i`. -/
theorem checkNumericalStability_truncation {α : Type} (settings : Rollout_Settings)
    (timeTrajectory : scalar_array_t α) (postEventIndicesStock : size_array_t)
    (stateTrajectory inputTrajectory : vector_array_t α) (i : Nat)
    (hen : settings.checkNumericalStability_ = true)
    (hst : stateTrajectory.length = timeTrajectory.length)
    (hin : inputTrajectory.length = timeTrajectory.length)
    (hi : i < timeTrajectory.length)
    (hbefore : ∀ j, j < i →
      failsAt settings.reconstructInputTrajectory_ stateTrajectory inputTrajectory j = false)
    (hat : failsAt settings.reconstructInputTrajectory_ stateTrajectory inputTrajectory i = true) :
    ∃ (pre mid : List (Effect α)) (cause : NotFinite) (t : α),
      timeTrajectory[i]? = some t ∧
      checkNumericalStability settings timeTrajectory postEventIndicesStock stateTrajectory
          inputTrajectory
        = pre ++ [Effect.read Traj.time i, Effect.cerr (Line.what cause (some t))] ++ mid ++
          [Effect.display (timeTrajectory.take (i + 1)) postEventIndicesStock
              (stateTrajectory.take (i + 1))
              (if settings.reconstructInputTrajectory_ then some (inputTrajectory.take (i + 1))
                else none),
            Effect.controllerDisplay, Effect.rethrow cause] ∧
      (∀ e ∈ pre ++ mid, e.isRead = true) ∧
      outcome (checkNumericalStability settings timeTrajectory postEventIndicesStock
        stateTrajectory inputTrajectory) = Outcome.threw cause ∧
      (timeTrajectory.take (i + 1)).length = i + 1 ∧
      (stateTrajectory.take (i + 1)).length = i + 1 ∧
      (inputTrajectory.take (i + 1)).length = i + 1 ∧
      (∀ j, j ≤ i →
        (timeTrajectory.take (i + 1))[j]? = timeTrajectory[j]? ∧
        (stateTrajectory.take (i + 1))[j]? = stateTrajectory[j]? ∧
        (inputTrajectory.take (i + 1))[j]? = inputTrajectory[j]?) := by
  obtain ⟨pre, mid, t, ht, htrace, hreads⟩ := checkNumericalStability_first_failure settings
    timeTrajectory postEventIndicesStock stateTrajectory inputTrajectory i hen hst hin hi
    hbefore hat
  refine ⟨pre, mid, causeAt stateTrajectory i, t, ht, htrace, hreads, ?_, ?_, ?_, ?_, ?_⟩
  · rw [htrace]
    exact outcome_append_rethrow _ _ _ _
  · rw [List.length_take]; omega
  · rw [List.length_take]; omega
  · rw [List.length_take]; omega
  · intro j hj
    have hj2 : j < i + 1 := by omega
    simp [List.getElem?_take, hj2]

/-- Witness of C7: four samples, the state at position `1` is infinite. -/
theorem checkNumericalStability_truncation_witness :
    ∃ cause : NotFinite,
      outcome (checkNumericalStability (Rollout_Settings.mk true true) ([0, 1, 2, 3] : List ℤ)
        [3] [[Coeff.finite 1], [Coeff.posInf], [Coeff.finite 3], [Coeff.finite 4]]
        [[Coeff.finite 0], [Coeff.finite 0], [Coeff.finite 0], [Coeff.finite 0]])
      = Outcome.threw cause :=
  let ⟨_, _, cause, _, h⟩ := checkNumericalStability_truncation (Rollout_Settings.mk true true)
    ([0, 1, 2, 3] : List ℤ) [3]
    [[Coeff.finite 1], [Coeff.posInf], [Coeff.finite 3], [Coeff.finite 4]]
    [[Coeff.finite 0], [Coeff.finite 0], [Coeff.finite 0], [Coeff.finite 0]] 1
    rfl rfl rfl (by decide) (by decide) (by decide)
  ⟨cause, h.2.2.2.1⟩

/-- C8 (when the check signals). With the check enabled and time, state and input sequences
of one length, `checkNumericalStability` ends with the exception exactly when some sample
has a state vector that is not finite or, with input reconstruction enabled, an input vector
that is not finite. Otherwise it returns, and its trace holds reads only: no line is
written, `display` and the controller report are not called. -/
theorem checkNumericalStability_signals_iff {α : Type} (settings : Rollout_Settings)
    (timeTrajectory : scalar_array_t α) (postEventIndicesStock : size_array_t)
    (stateTrajectory inputTrajectory : vector_array_t α)
    (hen : settings.checkNumericalStability_ = true)
    (hst : stateTrajectory.length = timeTrajectory.length)
    (hin : inputTrajectory.length = timeTrajectory.length) :
    ((∃ cause, outcome (checkNumericalStability settings timeTrajectory postEventIndicesStock
        stateTrajectory inputTrajectory) = Outcome.threw cause) ↔
      ∃ i, i < timeTrajectory.length ∧
        failsAt settings.reconstructInputTrajectory_ stateTrajectory inputTrajectory i = true) ∧
    ((¬ ∃ i, i < timeTrajectory.length ∧
        failsAt settings.reconstructInputTrajectory_ stateTrajectory inputTrajectory i = true) →
      outcome (checkNumericalStability settings timeTrajectory postEventIndicesStock
        stateTrajectory inputTrajectory) = Outcome.returned ∧
      ∀ e ∈ checkNumericalStability settings timeTrajectory postEventIndicesStock
        stateTrajectory inputTrajectory, e.isRead = true) := by
  have hclean : (¬ ∃ i, i < timeTrajectory.length ∧
        failsAt settings.reconstructInputTrajectory_ stateTrajectory inputTrajectory i = true) →
      ∀ e ∈ checkNumericalStability settings timeTrajectory postEventIndicesStock
        stateTrajectory inputTrajectory, e.isRead = true := by
    intro hno
    apply checkNumericalStability_clean settings timeTrajectory postEventIndicesStock
      stateTrajectory inputTrajectory hst hin
    intro j hj
    by_contra hf
    exact hno ⟨j, hj, by simpa using hf⟩
  refine ⟨⟨?_, ?_⟩, fun hno => ⟨outcome_of_reads _ (hclean hno), hclean hno⟩⟩
  · rintro ⟨cause, hc⟩
    by_contra hno
    rw [outcome_of_reads _ (hclean hno)] at hc
    exact Outcome.noConfusion hc
  · intro hex
    have hmin : ∀ m, m < Nat.find hex → ¬ (m < timeTrajectory.length ∧
        failsAt settings.reconstructInputTrajectory_ stateTrajectory inputTrajectory m = true) :=
      fun m hm => Nat.find_min hex hm
    obtain ⟨hlt, hfail⟩ := Nat.find_spec hex
    obtain ⟨pre, mid, t, _, htrace, _⟩ := checkNumericalStability_first_failure settings
      timeTrajectory postEventIndicesStock stateTrajectory inputTrajectory (Nat.find hex)
      hen hst hin hlt
      (fun j hj => by
        have := hmin j hj
        by_contra hf
        exact this ⟨by omega, by simpa using hf⟩)
      hfail
    exact ⟨_, by rw [htrace]; exact outcome_append_rethrow _ _ _ _⟩

/-- Witness of C8: no sample is non-finite, so the check returns. -/
theorem checkNumericalStability_signals_iff_witness :
    outcome (checkNumericalStability (Rollout_Settings.mk true true) ([0, 1] : List ℤ)
      [1] [[Coeff.finite 1], [Coeff.finite 2]] [[Coeff.finite 0], [Coeff.finite 0]])
    = Outcome.returned :=
  ((checkNumericalStability_signals_iff (Rollout_Settings.mk true true) ([0, 1] : List ℤ)
    [1] [[Coeff.finite 1], [Coeff.finite 2]] [[Coeff.finite 0], [Coeff.finite 0]]
    rfl rfl rfl).2 (by decide)).1

/-- C9 (opt-out). With the flag `checkNumericalStability_` off, `checkNumericalStability`
does nothing and returns, whatever the trajectory: no read, no temporary, no line, no call
of `display` or of the controller report, no exception. -/
theorem checkNumericalStability_opt_out {α : Type} (settings : Rollout_Settings)
    (timeTrajectory : scalar_array_t α) (postEventIndicesStock : size_array_t)
    (stateTrajectory inputTrajectory : vector_array_t α)
    (hoff : settings.checkNumericalStability_ = false) :
    checkNumericalStability settings timeTrajectory postEventIndicesStock stateTrajectory
      inputTrajectory = [] ∧
    outcome (checkNumericalStability settings timeTrajectory postEventIndicesStock
      stateTrajectory inputTrajectory) = Outcome.returned := by
  have h : checkNumericalStability settings timeTrajectory postEventIndicesStock
      stateTrajectory inputTrajectory = [] := by
    simp [checkNumericalStability, hoff]
  rw [h]
  exact ⟨rfl, rfl⟩

/-- Witness of C9: a NaN state, an infinite input and sequences of unequal lengths. -/
theorem checkNumericalStability_opt_out_witness :
    checkNumericalStability (Rollout_Settings.mk false true) ([0, 1, 2] : List ℤ) [7]
      [[Coeff.nan], [Coeff.finite 2]] [[Coeff.posInf]] = [] :=
  (checkNumericalStability_opt_out (Rollout_Settings.mk false true) ([0, 1, 2] : List ℤ) [7]
    [[Coeff.nan], [Coeff.finite 2]] [[Coeff.posInf]] rfl).1

/-- C10 (failing input). Four samples with an event index `3`; the state at position `1` is
infinite and the later states are NaN. `checkNumericalStability` calls `display` with the
sequences cut to length `2` and the event index set `[3]`, and `display` then reads the
time stamps at position `3`, which is outside the sequence of length `2`. -/
theorem display_reads_past_truncation :
    Effect.display ([0, 1] : List ℤ) [3] [[Coeff.finite 1], [Coeff.posInf]]
        (some [[Coeff.finite 0], [Coeff.finite 0]])
      ∈ checkNumericalStability (Rollout_Settings.mk true true) ([0, 1, 2, 3] : List ℤ) [3]
          [[Coeff.finite 1], [Coeff.posInf], [Coeff.nan], [Coeff.nan]]
          [[Coeff.finite 0], [Coeff.finite 0], [Coeff.finite 0], [Coeff.finite 0]] ∧
    Effect.read Traj.time 3
      ∈ display ([0, 1] : List ℤ) [3] [[Coeff.finite 1], [Coeff.posInf]]
          (some [[Coeff.finite 0], [Coeff.finite 0]]) ∧
    ¬ (3 < ([0, 1] : List ℤ).length) := by
  decide

/-! ## Interval builder: order and length of the stored intervals -/

/-- C11 (time interval invariant). For `initTime ≤ finalTime`, ascending event times and weak
epsilon `eps ≥ 0`, every interval built by `run` satisfies
nominal begin `≤` stored start `≤` end. -/
theorem run_interval_invariant {α S ε β : Type} [LinearOrderedField α]
    (runImpl : time_interval_array_t α → S → Except ε β) (eps : α)
    (initTime : α) (initState : S) (finalTime : α) (eventTimes : scalar_array_t α)
    (hle : initTime ≤ finalTime) (hs : eventTimes.Sorted (fun a b => a ≤ b))
    (heps : 0 ≤ eps) (i : Nat) (iv : α × α)
    (hiv : (run runImpl eps initTime initState finalTime eventTimes).constructed[i]? = some iv) :
    (nominalInterval (switchingTimes initTime finalTime eventTimes) i).1 ≤ iv.1 ∧
    iv.1 ≤ iv.2 := by
  obtain ⟨hi, hiv2⟩ := run_constructed_getElem? runImpl eps initTime initState finalTime
    eventTimes hle i iv hiv
  have hnom := nominalInterval_le _
    (switchingTimes_ascending initTime finalTime eventTimes hle hs) i hi
  rw [hiv2]
  exact adjustStart_bounds eps _ heps hnom

/-- Witness of C11: the degenerate third interval of the scenario `[0, 10]`, events `3, 4, 4`. -/
theorem run_interval_invariant_witness :
    (nominalInterval (switchingTimes (0 : ℚ) 10 [3, 4, 4]) 2).1 ≤ ((4 : ℚ), (4 : ℚ)).1 ∧
    ((4 : ℚ), (4 : ℚ)).1 ≤ ((4 : ℚ), (4 : ℚ)).2 :=
  run_interval_invariant (fun (_ : time_interval_array_t ℚ) (_ : Unit) =>
      (Except.ok () : Except Unit Unit)) (1 / 1000000) 0 () 10 [3, 4, 4]
    (by norm_num) (by simp [List.Sorted]; norm_num) (by norm_num) 2 (4, 4)
    (by
      rw [(run_ok _ _ _ _ _ _ (by norm_num)).1,
        scenario_intervals (1 / 1000000 : ℚ) (by norm_num) (by norm_num)]
      simp)

/-- C16 (horizon preservation). For `initTime ≤ finalTime`, ascending event times with `k`
events in `(initTime, finalTime]` and weak epsilon `eps ≥ 0`, every stored interval has
length `e - b - eps` when its nominal length `e - b` exceeds `eps` and `0` otherwise, and
the sum `L` of the stored lengths satisfies
`(finalTime - initTime) - (k + 1) * eps ≤ L ≤ finalTime - initTime`. -/
theorem run_horizon_preserved {α S ε β : Type} [LinearOrderedField α]
    (runImpl : time_interval_array_t α → S → Except ε β) (eps : α)
    (initTime : α) (initState : S) (finalTime : α) (eventTimes : scalar_array_t α)
    (hle : initTime ≤ finalTime) (hs : eventTimes.Sorted (fun a b => a ≤ b))
    (heps : 0 ≤ eps) :
    (∀ (i : Nat) (iv : α × α),
      (run runImpl eps initTime initState finalTime eventTimes).constructed[i]? = some iv →
      iv.2 - iv.1
        = if (nominalInterval (switchingTimes initTime finalTime eventTimes) i).2
              - (nominalInterval (switchingTimes initTime finalTime eventTimes) i).1 > eps
          then (nominalInterval (switchingTimes initTime finalTime eventTimes) i).2
              - (nominalInterval (switchingTimes initTime finalTime eventTimes) i).1 - eps
          else 0) ∧
    (finalTime - initTime)
        - ((eventTimes.countP (inRange initTime finalTime) : α) + 1) * eps
      ≤ ((run runImpl eps initTime initState finalTime eventTimes).constructed.map
          (fun iv => iv.2 - iv.1)).sum ∧
    ((run runImpl eps initTime initState finalTime eventTimes).constructed.map
        (fun iv => iv.2 - iv.1)).sum ≤ finalTime - initTime := by
  constructor
  · intro i iv hiv
    obtain ⟨_, hiv2⟩ := run_constructed_getElem? runImpl eps initTime initState finalTime
      eventTimes hle i iv hiv
    rw [hiv2]
    exact adjustStart_length eps _
  · have hasc := switchingTimes_ascending initTime finalTime eventTimes hle hs
    rw [(run_ok runImpl eps initTime initState finalTime eventTimes hle).1]
    rw [switchingTimes_sorted initTime finalTime eventTimes hs] at hasc ⊢
    have hb := timeIntervalArray_sum_bounds eps heps _ initTime finalTime hasc
    rw [← List.countP_eq_length_filter] at hb
    exact hb

/-- Witness of C16 on the scenario `[0, 10]` with events `3, 4, 4`. -/
theorem run_horizon_preserved_witness :
    ((run (fun (_ : time_interval_array_t ℚ) (_ : Unit) => (Except.ok () : Except Unit Unit))
      (1 / 1000000) 0 () 10 [3, 4, 4]).constructed.map (fun iv => iv.2 - iv.1)).sum
      ≤ (10 : ℚ) - 0 :=
  (run_horizon_preserved (fun (_ : time_interval_array_t ℚ) (_ : Unit) =>
      (Except.ok () : Except Unit Unit)) (1 / 1000000) 0 () 10 [3, 4, 4]
    (by norm_num) (by simp [List.Sorted]; norm_num) (by norm_num)).2.2

theorem truncateLoop_readOk {α : Type} (rc : Bool) (timeTrajectory : scalar_array_t α)
    (stateTrajectory inputTrajectory : vector_array_t α) (i : Nat)
    (ht : i < timeTrajectory.length) (hx : i < stateTrajectory.length)
    (hu : rc = true → i < inputTrajectory.length) :
    ∀ (rem j : Nat) (acc : scalar_array_t α × vector_array_t α × vector_array_t α),
      ∀ e ∈ (truncateLoop rc timeTrajectory stateTrajectory inputTrajectory i rem j acc).1,
        e.readOk rc timeTrajectory.length stateTrajectory.length inputTrajectory.length
          = true := by
  intro rem
  induction rem with
  | zero =>
    intro j acc e he
    simp [truncateLoop] at he
  | succ rem ih =>
    intro j acc e he
    obtain ⟨timeTemp, stateTemp, inputTemp⟩ := acc
    by_cases hji : j ≤ i
    · have hjt : j < timeTrajectory.length := by omega
      have hjx : j < stateTrajectory.length := by omega
      have h1 : timeTrajectory[j]? = some timeTrajectory[j] := List.getElem?_eq_getElem hjt
      have h2 : stateTrajectory[j]? = some stateTrajectory[j] := List.getElem?_eq_getElem hjx
      cases rc with
      | false =>
        simp only [truncateLoop, hji, if_true, h1, h2, Bool.false_eq_true, if_false,
          List.cons_append, List.nil_append, List.mem_cons] at he
        rcases he with he | he | he
        · rw [he]; simp [Effect.readOk, hjt]
        · rw [he]; simp [Effect.readOk, hjx]
        · exact ih (j + 1) _ e he
      | true =>
        have hju : j < inputTrajectory.length := by
          have := hu rfl
          omega
        have h3 : inputTrajectory[j]? = some inputTrajectory[j] :=
          List.getElem?_eq_getElem hju
        simp only [truncateLoop, hji, if_true, h1, h2, h3, List.cons_append, List.nil_append,
          List.mem_cons] at he
        rcases he with he | he | he | he
        · rw [he]; simp [Effect.readOk, hjt]
        · rw [he]; simp [Effect.readOk, hjx]
        · rw [he]; simp [Effect.readOk, hju]
        · exact ih (j + 1) _ e he
    · simp [truncateLoop, hji] at he

theorem onFailure_readOk {α : Type} (settings : Rollout_Settings)
    (timeTrajectory : scalar_array_t α) (postEventIndicesStock : size_array_t)
    (stateTrajectory inputTrajectory : vector_array_t α) (i : Nat) (cause : NotFinite)
    (ht : i < timeTrajectory.length) (hx : i < stateTrajectory.length)
    (hu : settings.reconstructInputTrajectory_ = true → i < inputTrajectory.length) :
    ∀ e ∈ onFailure settings timeTrajectory postEventIndicesStock stateTrajectory
        inputTrajectory i cause,
      e.readOk settings.reconstructInputTrajectory_ timeTrajectory.length
        stateTrajectory.length inputTrajectory.length = true := by
  intro e he
  have hloop := truncateLoop_readOk settings.reconstructInputTrajectory_ timeTrajectory
    stateTrajectory inputTrajectory i ht hx hu (i + 1) 0 ([], [], [])
  unfold onFailure at he
  simp only [List.append_assoc, List.cons_append, List.nil_append, List.mem_cons,
    List.mem_append] at he
  rcases he with he | he | he | he
  · rw [he]; simp [Effect.readOk, ht]
  · rw [he]; rfl
  · exact hloop e he
  · split at he
    · simp at he
    · simp only [List.mem_cons, List.mem_singleton, List.not_mem_nil, or_false] at he
      rcases he with he | he | he <;> rw [he] <;> rfl

/-- Every step of the scan is harmless for memory when the state sequence is as long as the
time sequence and, with input reconstruction enabled, so is the input sequence. -/
theorem scanLoop_readOk {α : Type} (settings : Rollout_Settings)
    (timeTrajectory : scalar_array_t α) (postEventIndicesStock : size_array_t)
    (stateTrajectory inputTrajectory : vector_array_t α)
    (hst : stateTrajectory.length = timeTrajectory.length)
    (hin : settings.reconstructInputTrajectory_ = true →
      inputTrajectory.length = timeTrajectory.length) :
    ∀ (rem i0 : Nat),
      ∀ e ∈ scanLoop settings timeTrajectory postEventIndicesStock stateTrajectory
          inputTrajectory rem i0,
        e.readOk settings.reconstructInputTrajectory_ timeTrajectory.length
          stateTrajectory.length inputTrajectory.length = true := by
  intro rem
  induction rem with
  | zero =>
    intro i0 e he
    simp [scanLoop] at he
  | succ rem ih =>
    intro i0 e he
    by_cases hi0 : i0 < timeTrajectory.length
    · have hx0 : i0 < stateTrajectory.length := by omega
      have hsx : stateTrajectory[i0]? = some stateTrajectory[i0] :=
        List.getElem?_eq_getElem hx0
      have hu : settings.reconstructInputTrajectory_ = true → i0 < inputTrajectory.length := by
        intro h
        have := hin h
        omega
      have hfail : ∀ cause, ∀ e ∈ onFailure settings timeTrajectory postEventIndicesStock
          stateTrajectory inputTrajectory i0 cause,
          e.readOk settings.reconstructInputTrajectory_ timeTrajectory.length
            stateTrajectory.length inputTrajectory.length = true :=
        fun cause => onFailure_readOk settings timeTrajectory postEventIndicesStock
          stateTrajectory inputTrajectory i0 cause hi0 hx0 hu
      simp only [scanLoop, hi0, if_true, hsx, List.mem_cons] at he
      rcases he with he | he
      · rw [he]; simp [Effect.readOk, hx0]
      · by_cases hfin : allFinite stateTrajectory[i0] = true
        · simp only [hfin, not_true_eq_false, if_false] at he
          cases hrc : settings.reconstructInputTrajectory_ with
          | false =>
            simp only [hrc, Bool.false_eq_true, if_false] at he
            have := ih (i0 + 1) e he
            rwa [hrc] at this
          | true =>
            have hu0 := hu hrc
            have hsu : inputTrajectory[i0]? = some inputTrajectory[i0] :=
              List.getElem?_eq_getElem hu0
            simp only [hrc, if_true, hsu, List.mem_cons] at he
            rcases he with he | he
            · rw [he]; simp [Effect.readOk, hu0]
            · by_cases hfu : allFinite inputTrajectory[i0] = true
              · simp only [hfu, not_true_eq_false, if_false] at he
                have := ih (i0 + 1) e he
                rwa [hrc] at this
              · simp only [hfu, not_false_eq_true, if_true] at he
                have := hfail NotFinite.input e he
                rwa [hrc] at this
        · simp only [hfin, not_false_eq_true, if_true] at he
          exact hfail NotFinite.state e he
    · simp [scanLoop, hi0] at he

/-! ## Stability supervisor: the offending quantity and the reads -/

/-- C13 (offending quantity). With the check enabled and sequences of one length, let `i` be
the first failing position. The `what()` line and the exception leaving the method name the
same quantity `cause` and the line carries the time stamp at `i`; `cause` is the state
exactly when the state vector at `i` is not finite (whatever the input vector at `i`), and
the input exactly when the state vector at `i` is finite, input reconstruction is enabled
and the input vector at `i` is not finite. -/
theorem checkNumericalStability_offending_quantity {α : Type} (settings : Rollout_Settings)
    (timeTrajectory : scalar_array_t α) (postEventIndicesStock : size_array_t)
    (stateTrajectory inputTrajectory : vector_array_t α) (i : Nat)
    (hen : settings.checkNumericalStability_ = true)
    (hst : stateTrajectory.length = timeTrajectory.length)
    (hin : inputTrajectory.length = timeTrajectory.length)
    (hi : i < timeTrajectory.length)
    (hbefore : ∀ j, j < i →
      failsAt settings.reconstructInputTrajectory_ stateTrajectory inputTrajectory j = false)
    (hat : failsAt settings.reconstructInputTrajectory_ stateTrajectory inputTrajectory i = true) :
    ∃ (pre post : List (Effect α)) (cause : NotFinite) (t : α),
      timeTrajectory[i]? = some t ∧
      checkNumericalStability settings timeTrajectory postEventIndicesStock stateTrajectory
          inputTrajectory
        = pre ++ [Effect.cerr (Line.what cause (some t))] ++ post ∧
      (∀ e ∈ pre, e.isRead = true) ∧
      outcome (checkNumericalStability settings timeTrajectory postEventIndicesStock
        stateTrajectory inputTrajectory) = Outcome.threw cause ∧
      (cause = NotFinite.state ↔
        stateTrajectory[i]?.any (fun x => !allFinite x) = true) ∧
      (cause = NotFinite.input ↔
        (stateTrajectory[i]?.any (fun x => !allFinite x) = false ∧
          settings.reconstructInputTrajectory_ = true ∧
          inputTrajectory[i]?.any (fun u => !allFinite u) = true)) := by
  obtain ⟨pre, mid, t, ht, htrace, hreads⟩ := checkNumericalStability_first_failure settings
    timeTrajectory postEventIndicesStock stateTrajectory inputTrajectory i hen hst hin hi
    hbefore hat
  refine ⟨pre ++ [Effect.read Traj.time i],
    mid ++ [Effect.display (timeTrajectory.take (i + 1)) postEventIndicesStock
        (stateTrajectory.take (i + 1))
        (if settings.reconstructInputTrajectory_ then some (inputTrajectory.take (i + 1))
          else none),
      Effect.controllerDisplay, Effect.rethrow (causeAt stateTrajectory i)],
    causeAt stateTrajectory i, t, ht, ?_, ?_, ?_, ?_, ?_⟩
  · rw [htrace]
    simp only [List.append_assoc, List.cons_append, List.nil_append]
  · intro e he
    rcases List.mem_append.mp he with h | h
    · exact hreads e (List.mem_append_left _ h)
    · simp only [List.mem_singleton] at h
      rw [h]; rfl
  · rw [htrace]
    exact outcome_append_rethrow _ _ _ _
  · unfold causeAt
    by_cases h : stateTrajectory[i]?.any (fun x => !allFinite x) = true
    · simp [h]
    · simp [h]
  · unfold causeAt
    by_cases h : stateTrajectory[i]?.any (fun x => !allFinite x) = true
    · simp [h]
    · have hfail := hat
      simp only [failsAt, Bool.or_eq_true, Bool.and_eq_true] at hfail
      rcases hfail with h2 | h2
      · exact absurd h2 h
      · simp [h, h2.1, h2.2]

/-- Witness of C13: state and input at position `1` are both not finite; the state is named. -/
theorem checkNumericalStability_offending_quantity_witness :
    ∃ cause : NotFinite,
      outcome (checkNumericalStability (Rollout_Settings.mk true true) ([0, 1, 2] : List ℤ)
        [2] [[Coeff.finite 1], [Coeff.posInf], [Coeff.nan]]
        [[Coeff.finite 0], [Coeff.nan], [Coeff.finite 0]])
      = Outcome.threw cause ∧ cause = NotFinite.state :=
  let ⟨_, _, cause, _, h⟩ := checkNumericalStability_offending_quantity
    (Rollout_Settings.mk true true) ([0, 1, 2] : List ℤ) [2]
    [[Coeff.finite 1], [Coeff.posInf], [Coeff.nan]]
    [[Coeff.finite 0], [Coeff.nan], [Coeff.finite 0]] 1
    rfl rfl rfl (by decide) (by decide) (by decide)
  ⟨cause, h.2.2.2.1, h.2.2.2.2.1.mpr (by decide)⟩

/-- C17 (scan safety). When the state sequence is as long as the time sequence and, if input
reconstruction is enabled, the input sequence is as long as the time sequence, every read
that `checkNumericalStability` makes in the scan and in the copy loop is inside the sequence
it reads, and no step depends on a read outside a sequence. The input sequence is read
only with input reconstruction enabled, so with it disabled the input sequence may have any
length. -/
theorem checkNumericalStability_scan_safety {α : Type} (settings : Rollout_Settings)
    (timeTrajectory : scalar_array_t α) (postEventIndicesStock : size_array_t)
    (stateTrajectory inputTrajectory : vector_array_t α)
    (hst : stateTrajectory.length = timeTrajectory.length)
    (hin : settings.reconstructInputTrajectory_ = true →
      inputTrajectory.length = timeTrajectory.length) :
    (∀ idx, Effect.read Traj.time idx ∈ checkNumericalStability settings timeTrajectory
        postEventIndicesStock stateTrajectory inputTrajectory → idx < timeTrajectory.length) ∧
    (∀ idx, Effect.read Traj.state idx ∈ checkNumericalStability settings timeTrajectory
        postEventIndicesStock stateTrajectory inputTrajectory → idx < stateTrajectory.length) ∧
    (∀ idx, Effect.read Traj.input idx ∈ checkNumericalStability settings timeTrajectory
        postEventIndicesStock stateTrajectory inputTrajectory →
      settings.reconstructInputTrajectory_ = true ∧ idx < inputTrajectory.length) ∧
    Effect.undefined ∉ checkNumericalStability settings timeTrajectory
        postEventIndicesStock stateTrajectory inputTrajectory := by
  have hall : ∀ e ∈ checkNumericalStability settings timeTrajectory postEventIndicesStock
      stateTrajectory inputTrajectory,
      e.readOk settings.reconstructInputTrajectory_ timeTrajectory.length
        stateTrajectory.length inputTrajectory.length = true := by
    intro e he
    unfold checkNumericalStability at he
    split at he
    · simp at he
    · exact scanLoop_readOk settings timeTrajectory postEventIndicesStock stateTrajectory
        inputTrajectory hst hin timeTrajectory.length 0 e he
  refine ⟨?_, ?_, ?_, ?_⟩
  · intro idx h
    simpa [Effect.readOk] using hall _ h
  · intro idx h
    simpa [Effect.readOk] using hall _ h
  · intro idx h
    simpa [Effect.readOk] using hall _ h
  · intro h
    simpa [Effect.readOk] using hall _ h

/-- Witness of C17: input reconstruction is disabled and the input sequence is empty. -/
theorem checkNumericalStability_scan_safety_witness :
    Effect.undefined ∉ checkNumericalStability (Rollout_Settings.mk true false)
      ([0, 1, 2] : List ℤ) [2] [[Coeff.finite 1], [Coeff.posInf], [Coeff.nan]] [] :=
  (checkNumericalStability_scan_safety (Rollout_Settings.mk true false)
    ([0, 1, 2] : List ℤ) [2] [[Coeff.finite 1], [Coeff.posInf], [Coeff.nan]] []
    rfl (by decide)).2.2.2

/-! ## Diagnostic dump: facts about the loops -/

theorem displaySample_no_marker {α : Type} (timeTrajectory : scalar_array_t α)
    (stateTrajectory : vector_array_t α) (inputTrajectory : Option (vector_array_t α))
    (k : Nat) :
    ∀ e ∈ displaySample timeTrajectory stateTrajectory inputTrajectory k,
      e.isMarker = false := by
  intro e he
  unfold displaySample at he
  cases inputTrajectory with
  | none =>
    simp only [List.append_nil, List.mem_cons, List.mem_singleton, List.not_mem_nil,
      or_false] at he
    rcases he with h | h | h | h | h <;> rw [h] <;> rfl
  | some u =>
    simp only [List.cons_append, List.nil_append, List.mem_cons, List.mem_singleton,
      List.not_mem_nil, or_false] at he
    rcases he with h | h | h | h | h | h | h <;> rw [h] <;> rfl

theorem records_no_marker {α : Type} (timeTrajectory : scalar_array_t α)
    (stateTrajectory : vector_array_t α) (inputTrajectory : Option (vector_array_t α))
    (ks : List Nat) :
    ∀ e ∈ ks.flatMap (displaySample timeTrajectory stateTrajectory inputTrajectory),
      e.isMarker = false := by
  intro e he
  obtain ⟨k, _, hk⟩ := List.mem_flatMap.mp he
  exact displaySample_no_marker timeTrajectory stateTrajectory inputTrajectory k e hk

/-- The inner loop of an iteration with an event index `q` ahead of `k`: the records of the
samples `k, ..., q - 1`, then the marker line; the loop is left with `k = q`. -/
theorem displayInner_event {α : Type} (timeTrajectory : scalar_array_t α)
    (postEventIndicesStock : size_array_t) (stateTrajectory : vector_array_t α)
    (inputTrajectory : Option (vector_array_t α)) (i q : Nat)
    (hi : i < postEventIndicesStock.length) (hq : postEventIndicesStock.getD i 0 = q)
    (hqn : q ≤ timeTrajectory.length) :
    ∀ (rem k : Nat), k + rem = timeTrajectory.length → k + 1 ≤ q →
      displayInner timeTrajectory postEventIndicesStock stateTrajectory inputTrajectory i rem k
        = ((List.range' k (q - k)).flatMap
              (displaySample timeTrajectory stateTrajectory inputTrajectory)
            ++ [Effect.cerr Line.eventTookPlace], q) := by
  intro rem
  induction rem with
  | zero =>
    intro k hk hkq
    omega
  | succ rem ih =>
    intro k hk hkq
    have hkn : k < timeTrajectory.length := by omega
    by_cases heq : k + 1 = q
    · have hcond : i < postEventIndicesStock.length ∧ k + 1 = postEventIndicesStock.getD i 0 :=
        ⟨hi, by rw [hq]; exact heq⟩
      have h1 : q - k = 1 := by omega
      simp only [displayInner, hkn, if_true]
      rw [if_pos hcond, h1, heq]
      simp
    · have hcond : ¬ (i < postEventIndicesStock.length ∧
          k + 1 = postEventIndicesStock.getD i 0) := by
        rw [hq]
        exact fun h => heq h.2
      have hrec := ih (k + 1) (by omega) (by omega)
      have h1 : q - k = (q - (k + 1)) + 1 := by omega
      simp only [displayInner, hkn, if_true]
      rw [if_neg hcond, hrec, h1, List.range'_succ, List.flatMap_cons, List.append_assoc]

/-- The inner loop of the last iteration, which checks no event index: the records of the
samples from `k` to the end. -/
theorem displayInner_last {α : Type} (timeTrajectory : scalar_array_t α)
    (postEventIndicesStock : size_array_t) (stateTrajectory : vector_array_t α)
    (inputTrajectory : Option (vector_array_t α)) (i : Nat)
    (hi : ¬ i < postEventIndicesStock.length) :
    ∀ (rem k : Nat), k + rem = timeTrajectory.length →
      displayInner timeTrajectory postEventIndicesStock stateTrajectory inputTrajectory i rem k
        = ((List.range' k (timeTrajectory.length - k)).flatMap
              (displaySample timeTrajectory stateTrajectory inputTrajectory),
            timeTrajectory.length) := by
  intro rem
  induction rem with
  | zero =>
    intro k hk
    have : k = timeTrajectory.length := by omega
    subst this
    simp [displayInner]
  | succ rem ih =>
    intro k hk
    have hkn : k < timeTrajectory.length := by omega
    have hcond : ¬ (i < postEventIndicesStock.length ∧
        k + 1 = postEventIndicesStock.getD i 0) := fun h => hi h.1
    have hrec := ih (k + 1) (by omega)
    have h1 : timeTrajectory.length - k = (timeTrajectory.length - (k + 1)) + 1 := by omega
    simp only [displayInner, hkn, if_true]
    rw [if_neg hcond, hrec, h1, List.range'_succ, List.flatMap_cons]

/-- The inner loop of any iteration, markers left out: the records of the samples from `k`
up to the position where the loop is left, which lies between `k` and the length. -/
theorem displayInner_records {α : Type} (timeTrajectory : scalar_array_t α)
    (postEventIndicesStock : size_array_t) (stateTrajectory : vector_array_t α)
    (inputTrajectory : Option (vector_array_t α)) (i : Nat) :
    ∀ (rem k : Nat), k + rem = timeTrajectory.length →
      k ≤ (displayInner timeTrajectory postEventIndicesStock stateTrajectory inputTrajectory
        i rem k).2 ∧
      (displayInner timeTrajectory postEventIndicesStock stateTrajectory inputTrajectory
        i rem k).2 ≤ timeTrajectory.length ∧
      (displayInner timeTrajectory postEventIndicesStock stateTrajectory inputTrajectory
        i rem k).1.filter (fun e => !e.isMarker)
        = (List.range' k ((displayInner timeTrajectory postEventIndicesStock stateTrajectory
              inputTrajectory i rem k).2 - k)).flatMap
            (displaySample timeTrajectory stateTrajectory inputTrajectory) := by
  intro rem
  induction rem with
  | zero =>
    intro k hk
    simp only [displayInner]
    exact ⟨le_refl _, by omega, by simp⟩
  | succ rem ih =>
    intro k hk
    have hkn : k < timeTrajectory.length := by omega
    have hsample : (displaySample timeTrajectory stateTrajectory inputTrajectory k).filter
        (fun e => !e.isMarker)
        = displaySample timeTrajectory stateTrajectory inputTrajectory k :=
      List.filter_eq_self.mpr (fun e he => by
        simp [displaySample_no_marker timeTrajectory stateTrajectory inputTrajectory k e he])
    by_cases hcond : i < postEventIndicesStock.length ∧
        k + 1 = postEventIndicesStock.getD i 0
    · simp only [displayInner, hkn, if_true]
      rw [if_pos hcond]
      refine ⟨by omega, by omega, ?_⟩
      have h1 : k + 1 - k = 1 := by omega
      simp only [List.filter_append, hsample, h1]
      simp [List.filter, Effect.isMarker]
    · obtain ⟨h1, h2, h3⟩ := ih (k + 1) (by omega)
      simp only [displayInner, hkn, if_true]
      rw [if_neg hcond]
      simp only [List.filter_append, hsample, h3]
      refine ⟨by omega, h2, ?_⟩
      have hlen : (displayInner timeTrajectory postEventIndicesStock stateTrajectory
          inputTrajectory i rem (k + 1)).2 - k
          = ((displayInner timeTrajectory postEventIndicesStock stateTrajectory
              inputTrajectory i rem (k + 1)).2 - (k + 1)) + 1 := by omega
      rw [hlen, List.range'_succ, List.flatMap_cons]

theorem range_split_at (k j n : Nat) (hkj : k ≤ j) (hjn : j ≤ n) :
    List.range' k (n - k) = List.range' k (j - k) ++ List.range' j (n - j) := by
  have h := List.range'_append k (j - k) (n - j) 1
  have h1 : k + 1 * (j - k) = j := by omega
  have h2 : n - j + (j - k) = n - k := by omega
  rw [h1, h2] at h
  exact h.symm

theorem display_eq_header_append {α : Type} (timeTrajectory : scalar_array_t α)
    (postEventIndicesStock : size_array_t) (stateTrajectory : vector_array_t α)
    (inputTrajectory : Option (vector_array_t α)) :
    display timeTrajectory postEventIndicesStock stateTrajectory inputTrajectory
      = dumpHeader timeTrajectory postEventIndicesStock ++
        displayOuter timeTrajectory postEventIndicesStock stateTrajectory inputTrajectory
          (postEventIndicesStock.length + 1) 0 0 := by
  unfold display dumpHeader
  cases postEventIndicesStock with
  | nil => simp
  | cons q ps => simp

theorem dumpHeader_no_marker {α : Type} (timeTrajectory : scalar_array_t α)
    (postEventIndicesStock : size_array_t) :
    ∀ e ∈ dumpHeader timeTrajectory postEventIndicesStock, e.isMarker = false := by
  intro e he
  unfold dumpHeader at he
  simp only [List.mem_append, List.mem_cons, List.mem_singleton, List.not_mem_nil, or_false]
    at he
  rcases he with (h | h) | h
  · rcases h with h | h <;> rw [h] <;> rfl
  · split at h
    · simp at h
    · simp only [List.mem_append, List.mem_cons, List.mem_singleton, List.not_mem_nil,
        or_false, List.mem_flatMap] at h
      rcases h with (h | ⟨ind, _, h⟩) | h
      · rw [h]; rfl
      · rcases h with h | h <;> rw [h] <;> rfl
      · rw [h]; rfl
  · rw [h]; rfl

/-- The outer loop, markers left out, when it runs up to and including the last iteration:
the records of the samples from `k` to the end, whatever the event indices. -/
theorem displayOuter_records {α : Type} (timeTrajectory : scalar_array_t α)
    (postEventIndicesStock : size_array_t) (stateTrajectory : vector_array_t α)
    (inputTrajectory : Option (vector_array_t α)) :
    ∀ (cnt i k : Nat), i + cnt = postEventIndicesStock.length + 1 →
      k ≤ timeTrajectory.length → (cnt = 0 → k = timeTrajectory.length) →
      (displayOuter timeTrajectory postEventIndicesStock stateTrajectory inputTrajectory
        cnt i k).filter (fun e => !e.isMarker)
        = (List.range' k (timeTrajectory.length - k)).flatMap
            (displaySample timeTrajectory stateTrajectory inputTrajectory) := by
  intro cnt
  induction cnt with
  | zero =>
    intro i k _ _ h0
    rw [h0 rfl]
    simp [displayOuter]
  | succ cnt ih =>
    intro i k hi hk _
    have hlt : i < postEventIndicesStock.length + 1 := by omega
    obtain ⟨h1, h2, h3⟩ := displayInner_records timeTrajectory postEventIndicesStock
      stateTrajectory inputTrajectory i (timeTrajectory.length - k) k (by omega)
    have hend : cnt = 0 → (displayInner timeTrajectory postEventIndicesStock stateTrajectory
        inputTrajectory i (timeTrajectory.length - k) k).2 = timeTrajectory.length := by
      intro hc
      have hnot : ¬ i < postEventIndicesStock.length := by omega
      rw [displayInner_last timeTrajectory postEventIndicesStock stateTrajectory
        inputTrajectory i hnot (timeTrajectory.length - k) k (by omega)]
    have hrec := ih (i + 1) _ (by omega) h2 hend
    simp only [displayOuter]
    rw [if_pos hlt, List.filter_append, h3, hrec, ← List.flatMap_append,
      ← range_split_at k _ _ h1 h2]

/-- The outer loop for strictly increasing event indices ahead of `k`: the samples from `k`
on, cut into segments at the remaining event indices. -/
theorem displayOuter_segmented {α : Type} (timeTrajectory : scalar_array_t α)
    (postEventIndicesStock : size_array_t) (stateTrajectory : vector_array_t α)
    (inputTrajectory : Option (vector_array_t α)) :
    ∀ (cnt i k : Nat), i + cnt = postEventIndicesStock.length + 1 →
      k ≤ timeTrajectory.length → (cnt = 0 → k = timeTrajectory.length) →
      (postEventIndicesStock.drop i).Sorted (fun a b => a < b) →
      (∀ q ∈ postEventIndicesStock.drop i, k < q ∧ q ≤ timeTrajectory.length) →
      displayOuter timeTrajectory postEventIndicesStock stateTrajectory inputTrajectory cnt i k
        = segmentedDump timeTrajectory stateTrajectory inputTrajectory
            (postEventIndicesStock.drop i) k := by
  intro cnt
  induction cnt with
  | zero =>
    intro i k hi _ h0 _ _
    have hdrop : postEventIndicesStock.drop i = [] := List.drop_of_length_le (by omega)
    rw [hdrop, h0 rfl]
    simp [displayOuter, segmentedDump]
  | succ cnt ih =>
    intro i k hi hk _ hs hmem
    have hlt : i < postEventIndicesStock.length + 1 := by omega
    simp only [displayOuter]
    rw [if_pos hlt]
    by_cases him : i < postEventIndicesStock.length
    · have hdrop : postEventIndicesStock.drop i
          = postEventIndicesStock[i] :: postEventIndicesStock.drop (i + 1) :=
        List.drop_eq_getElem_cons him
      rw [hdrop] at hs hmem ⊢
      have hq := hmem postEventIndicesStock[i] (List.mem_cons_self _ _)
      have hs2 := List.sorted_cons.mp hs
      rw [displayInner_event timeTrajectory postEventIndicesStock stateTrajectory
        inputTrajectory i postEventIndicesStock[i] him
        (List.getD_eq_getElem postEventIndicesStock 0 him) hq.2
        (timeTrajectory.length - k) k (by omega) (by omega)]
      have hrec := ih (i + 1) postEventIndicesStock[i] (by omega) hq.2 (by omega) hs2.2
        (fun q hqm => ⟨hs2.1 q hqm, (hmem q (List.mem_cons_of_mem _ hqm)).2⟩)
      simp only [hrec, segmentedDump]
    · have hdrop : postEventIndicesStock.drop i = [] := List.drop_of_length_le (by omega)
      have hc : cnt = 0 := by omega
      subst hc
      rw [hdrop, displayInner_last timeTrajectory postEventIndicesStock stateTrajectory
        inputTrajectory i him (timeTrajectory.length - k) k (by omega)]
      simp [displayOuter, segmentedDump]

theorem segmentedDump_markers {α : Type} (timeTrajectory : scalar_array_t α)
    (stateTrajectory : vector_array_t α) (inputTrajectory : Option (vector_array_t α)) :
    ∀ (ps : List Nat) (k : Nat),
      (segmentedDump timeTrajectory stateTrajectory inputTrajectory ps k).countP
        (fun e => e.isMarker) = ps.length := by
  intro ps
  induction ps with
  | nil =>
    intro k
    simp only [segmentedDump, List.length_nil]
    apply List.countP_eq_zero.mpr
    intro e he
    simp [records_no_marker timeTrajectory stateTrajectory inputTrajectory _ e he]
  | cons q ps ih =>
    intro k
    have h0 : ((List.range' k (q - k)).flatMap
        (displaySample timeTrajectory stateTrajectory inputTrajectory)).countP
        (fun e => e.isMarker) = 0 := by
      apply List.countP_eq_zero.mpr
      intro e he
      simp [records_no_marker timeTrajectory stateTrajectory inputTrajectory _ e he]
    simp only [segmentedDump, List.countP_append, h0, ih q, List.length_cons]
    simp [List.countP_cons, Effect.isMarker]
    omega

/-- The segmented dump, sample by sample: the record of sample `j` is followed by a marker
line exactly when `j + 1` is one of the event indices. -/
theorem segmentedDump_eq_flatMap {α : Type} (timeTrajectory : scalar_array_t α)
    (stateTrajectory : vector_array_t α) (inputTrajectory : Option (vector_array_t α)) :
    ∀ (ps : List Nat) (k : Nat), ps.Sorted (fun a b => a < b) →
      (∀ q ∈ ps, k < q ∧ q ≤ timeTrajectory.length) → k ≤ timeTrajectory.length →
      segmentedDump timeTrajectory stateTrajectory inputTrajectory ps k
        = (List.range' k (timeTrajectory.length - k)).flatMap
            (fun j => displaySample timeTrajectory stateTrajectory inputTrajectory j ++
              if j + 1 ∈ ps then [Effect.cerr Line.eventTookPlace] else []) := by
  intro ps
  induction ps with
  | nil =>
    intro k _ _ _
    simp only [segmentedDump]
    apply List.flatMap_congr
    intro j _
    simp
  | cons q ps ih =>
    intro k hs hmem hk
    have hq := hmem q (List.mem_cons_self _ _)
    have hs2 := List.sorted_cons.mp hs
    have hrec := ih q hs2.2
      (fun r hr => ⟨hs2.1 r hr, (hmem r (List.mem_cons_of_mem _ hr)).2⟩) hq.2
    have hsplit := range_split_at k q timeTrajectory.length (le_of_lt hq.1) hq.2
    have hlast : q - k = (q - 1 - k) + 1 := by omega
    have hconcat : List.range' k (q - k) = List.range' k (q - 1 - k) ++ [q - 1] := by
      rw [hlast, List.range'_concat]
      congr 2
      omega
    have hlow : (List.range' k (q - 1 - k)).flatMap
        (fun j => displaySample timeTrajectory stateTrajectory inputTrajectory j ++
          if j + 1 ∈ q :: ps then [Effect.cerr Line.eventTookPlace] else [])
        = (List.range' k (q - 1 - k)).flatMap
            (displaySample timeTrajectory stateTrajectory inputTrajectory) := by
      apply List.flatMap_congr
      intro j hj
      have hjr := List.mem_range'_1.mp hj
      have hnot : ¬ (j + 1 ∈ q :: ps) := by
        intro hin
        rcases List.mem_cons.mp hin with h | h
        · omega
        · have := hs2.1 (j + 1) h
          omega
      rw [if_neg hnot, List.append_nil]
    have hmid : (q - 1 + 1 ∈ q :: ps) := by
      have : q - 1 + 1 = q := by omega
      rw [this]
      exact List.mem_cons_self _ _
    have hhigh : (List.range' q (timeTrajectory.length - q)).flatMap
        (fun j => displaySample timeTrajectory stateTrajectory inputTrajectory j ++
          if j + 1 ∈ q :: ps then [Effect.cerr Line.eventTookPlace] else [])
        = (List.range' q (timeTrajectory.length - q)).flatMap
            (fun j => displaySample timeTrajectory stateTrajectory inputTrajectory j ++
              if j + 1 ∈ ps then [Effect.cerr Line.eventTookPlace] else []) := by
      apply List.flatMap_congr
      intro j hj
      have hjr := List.mem_range'_1.mp hj
      have hiff : (j + 1 ∈ q :: ps) ↔ (j + 1 ∈ ps) := by
        constructor
        · intro hin
          rcases List.mem_cons.mp hin with h | h
          · omega
          · exact h
        · exact fun h => List.mem_cons_of_mem _ h
      simp only [hiff]
    simp only [segmentedDump]
    rw [hsplit, List.flatMap_append, hhigh, ← hrec, hconcat, List.flatMap_append,
      List.flatMap_append, hlow, List.flatMap_singleton, List.flatMap_singleton, if_pos hmid]
    simp only [List.append_assoc]

theorem displaySample_eq_record {α : Type} (timeTrajectory : scalar_array_t α)
    (stateTrajectory : vector_array_t α) (inputTrajectory : Option (vector_array_t α))
    (hst : stateTrajectory.length = timeTrajectory.length)
    (hin : ∀ us, inputTrajectory = some us → us.length = timeTrajectory.length)
    (k : Nat) (hk : k < timeTrajectory.length) :
    ∃ (t : α) (x : vector_t α),
      timeTrajectory[k]? = some t ∧ stateTrajectory[k]? = some x ∧
      (inputTrajectory = none →
        displaySample timeTrajectory stateTrajectory inputTrajectory k
          = sampleRecord k t x none) ∧
      (∀ us, inputTrajectory = some us → ∃ v, us[k]? = some v ∧
        displaySample timeTrajectory stateTrajectory inputTrajectory k
          = sampleRecord k t x (some v)) := by
  have hkx : k < stateTrajectory.length := by omega
  have h1 : timeTrajectory[k]? = some timeTrajectory[k] := List.getElem?_eq_getElem hk
  have h2 : stateTrajectory[k]? = some stateTrajectory[k] := List.getElem?_eq_getElem hkx
  refine ⟨timeTrajectory[k], stateTrajectory[k], h1, h2, ?_, ?_⟩
  · intro hnone
    subst hnone
    simp [displaySample, sampleRecord, h1, h2]
  · intro us hus
    have hku : k < us.length := by
      have := hin us hus
      omega
    have h3 : us[k]? = some us[k] := List.getElem?_eq_getElem hku
    refine ⟨us[k], h3, ?_⟩
    subst hus
    simp [displaySample, sampleRecord, h1, h2, h3]

/-- Where the reads of `display` go: a read in the head of the dump is a read of the time
stamps at an event index; a read in the record of sample `k` is a read at `k`, and the
input sequence is read only when it is given. -/
theorem display_reads {α : Type} (timeTrajectory : scalar_array_t α)
    (postEventIndicesStock : size_array_t) (stateTrajectory : vector_array_t α)
    (inputTrajectory : Option (vector_array_t α)) (s : Traj) (idx : Nat)
    (hmem : Effect.read s idx
      ∈ display timeTrajectory postEventIndicesStock stateTrajectory inputTrajectory) :
    (s = Traj.time ∧ idx ∈ postEventIndicesStock) ∨
    (idx < timeTrajectory.length ∧ (s = Traj.input → inputTrajectory ≠ none)) := by
  have hfil : Effect.read s idx
      ∈ (display timeTrajectory postEventIndicesStock stateTrajectory inputTrajectory).filter
          (fun e => !e.isMarker) :=
    List.mem_filter.mpr ⟨hmem, rfl⟩
  rw [display_eq_header_append, List.filter_append,
    displayOuter_records timeTrajectory postEventIndicesStock stateTrajectory inputTrajectory
      (postEventIndicesStock.length + 1) 0 0 (by omega) (Nat.zero_le _)
      (fun h => absurd h (Nat.succ_ne_zero _))] at hfil
  rcases List.mem_append.mp hfil with h | h
  · left
    have h2 := (List.mem_filter.mp h).1
    unfold dumpHeader at h2
    simp only [List.mem_append, List.mem_cons, List.mem_singleton, List.not_mem_nil, or_false,
      reduceCtorEq] at h2
    rcases h2 with h2 | h2
    · exact absurd h2 (by simp)
    · split at h2
      · simp at h2
      · simp only [List.mem_append, List.mem_cons, List.mem_singleton, List.not_mem_nil,
          or_false, List.mem_flatMap, reduceCtorEq, false_or, Effect.read.injEq] at h2
        obtain ⟨ind, hind, h3, h4⟩ := h2
        exact ⟨h3, h4 ▸ hind⟩
  · right
    obtain ⟨k, hk, hk2⟩ := List.mem_flatMap.mp h
    have hkn : k < timeTrajectory.length := by
      have := List.mem_range'_1.mp hk
      omega
    unfold displaySample at hk2
    cases inputTrajectory with
    | none =>
      simp only [List.append_nil, List.mem_cons, List.mem_singleton, List.not_mem_nil,
        or_false, reduceCtorEq, false_or, Effect.read.injEq] at hk2
      rcases hk2 with h3 | h3
      · exact ⟨h3.2 ▸ hkn, fun hs => by rw [h3.1] at hs; exact absurd hs (by decide)⟩
      · exact ⟨h3.2 ▸ hkn, fun hs => by rw [h3.1] at hs; exact absurd hs (by decide)⟩
    | some us =>
      simp only [List.cons_append, List.nil_append, List.mem_cons, List.mem_singleton,
        List.not_mem_nil, or_false, reduceCtorEq, false_or, Effect.read.injEq] at hk2
      rcases hk2 with h3 | h3 | h3
      · exact ⟨h3.2 ▸ hkn, fun _ => by simp⟩
      · exact ⟨h3.2 ▸ hkn, fun _ => by simp⟩
      · exact ⟨h3.2 ▸ hkn, fun _ => by simp⟩

/-! ## Diagnostic dump: the claims -/

/-- C14 (completeness of the dump). For a trajectory of length `n` whose state sequence and
input sequence (when given) have length `n`, and an event index set with entries below `n`
in any order and multiplicity, the trace of `display` without its marker lines is the head
of the dump followed by the records of the samples `0, 1, ..., n - 1`, each once and in
this order. The record of sample `k` carries the time and the state of sample `k`, and an
input line with the input of sample `k` exactly when an input sequence is given. Every read
of `display` is inside the sequence it reads. -/
theorem display_completeness {α : Type} (timeTrajectory : scalar_array_t α)
    (postEventIndicesStock : size_array_t) (stateTrajectory : vector_array_t α)
    (inputTrajectory : Option (vector_array_t α))
    (hst : stateTrajectory.length = timeTrajectory.length)
    (hin : ∀ us, inputTrajectory = some us → us.length = timeTrajectory.length)
    (hp : ∀ q ∈ postEventIndicesStock, q < timeTrajectory.length) :
    (display timeTrajectory postEventIndicesStock stateTrajectory inputTrajectory).filter
        (fun e => !e.isMarker)
      = dumpHeader timeTrajectory postEventIndicesStock ++
        (List.range timeTrajectory.length).flatMap
          (displaySample timeTrajectory stateTrajectory inputTrajectory) ∧
    (∀ k, k < timeTrajectory.length →
      ∃ (t : α) (x : vector_t α),
        timeTrajectory[k]? = some t ∧ stateTrajectory[k]? = some x ∧
        (inputTrajectory = none →
          displaySample timeTrajectory stateTrajectory inputTrajectory k
            = sampleRecord k t x none) ∧
        (∀ us, inputTrajectory = some us → ∃ v, us[k]? = some v ∧
          displaySample timeTrajectory stateTrajectory inputTrajectory k
            = sampleRecord k t x (some v))) ∧
    (∀ idx, Effect.read Traj.time idx
        ∈ display timeTrajectory postEventIndicesStock stateTrajectory inputTrajectory →
      idx < timeTrajectory.length) ∧
    (∀ idx, Effect.read Traj.state idx
        ∈ display timeTrajectory postEventIndicesStock stateTrajectory inputTrajectory →
      idx < stateTrajectory.length) ∧
    (∀ idx, Effect.read Traj.input idx
        ∈ display timeTrajectory postEventIndicesStock stateTrajectory inputTrajectory →
      ∃ us, inputTrajectory = some us ∧ idx < us.length) := by
  refine ⟨?_, ?_, ?_, ?_, ?_⟩
  · have hhead : (dumpHeader timeTrajectory postEventIndicesStock).filter
        (fun e => !e.isMarker) = dumpHeader timeTrajectory postEventIndicesStock :=
      List.filter_eq_self.mpr (fun e he => by
        simp [dumpHeader_no_marker timeTrajectory postEventIndicesStock e he])
    rw [display_eq_header_append, List.filter_append, hhead,
      displayOuter_records timeTrajectory postEventIndicesStock stateTrajectory
        inputTrajectory (postEventIndicesStock.length + 1) 0 0 (by omega) (Nat.zero_le _)
        (fun h => absurd h (Nat.succ_ne_zero _)),
      List.range_eq_range', Nat.sub_zero]
  · intro k hk
    exact displaySample_eq_record timeTrajectory stateTrajectory inputTrajectory hst hin k hk
  · intro idx h
    rcases display_reads timeTrajectory postEventIndicesStock stateTrajectory inputTrajectory
      Traj.time idx h with h2 | h2
    · exact hp idx h2.2
    · exact h2.1
  · intro idx h
    rcases display_reads timeTrajectory postEventIndicesStock stateTrajectory inputTrajectory
      Traj.state idx h with h2 | h2
    · exact absurd h2.1 (by decide)
    · rw [hst]; exact h2.1
  · intro idx h
    rcases display_reads timeTrajectory postEventIndicesStock stateTrajectory inputTrajectory
      Traj.input idx h with h2 | h2
    · exact absurd h2.1 (by decide)
    · cases hu : inputTrajectory with
      | none => exact absurd hu (h2.2 rfl)
      | some us =>
        refine ⟨us, rfl, ?_⟩
        rw [hin us hu]; exact h2.1

/-- Witness of C14: three samples with inputs, event indices `2, 1, 1` out of order. -/
theorem display_completeness_witness :
    (display ([0, 1, 2] : List ℤ) [2, 1, 1]
        [[Coeff.finite 1], [Coeff.finite 2], [Coeff.finite 3]]
        (some [[Coeff.finite 0], [Coeff.finite 0], [Coeff.finite 0]])).filter
        (fun e => !e.isMarker)
      = dumpHeader ([0, 1, 2] : List ℤ) [2, 1, 1] ++
        (List.range ([0, 1, 2] : List ℤ).length).flatMap
          (displaySample ([0, 1, 2] : List ℤ)
            [[Coeff.finite 1], [Coeff.finite 2], [Coeff.finite 3]]
            (some [[Coeff.finite 0], [Coeff.finite 0], [Coeff.finite 0]])) :=
  (display_completeness ([0, 1, 2] : List ℤ) [2, 1, 1]
    [[Coeff.finite 1], [Coeff.finite 2], [Coeff.finite 3]]
    (some [[Coeff.finite 0], [Coeff.finite 0], [Coeff.finite 0]])
    rfl (fun us h => by cases h; rfl) (by decide)).1

/-- C15 (event markers). For a trajectory of length `n` and strictly increasing event indices
`p_1 < ... < p_m` with `1 ≤ p_j ≤ n - 1`, the trace of `display` is the head of the dump
(the trajectory length, the number `m` of events, the time stamps at `p_1, ..., p_m`)
followed by the records of the samples `0, ..., n - 1`, where the record of sample `k` is
followed by a marker line exactly when `k + 1` is an event index: the marker of `p_j`
stands right after the record of sample `p_j - 1` and before the record of sample `p_j`.
There are exactly `m` marker lines, and every listed event time is a time stamp of the
trajectory. -/
theorem display_event_markers {α : Type} (timeTrajectory : scalar_array_t α)
    (postEventIndicesStock : size_array_t) (stateTrajectory : vector_array_t α)
    (inputTrajectory : Option (vector_array_t α))
    (hs : postEventIndicesStock.Sorted (fun a b => a < b))
    (hp : ∀ q ∈ postEventIndicesStock, 1 ≤ q ∧ q + 1 ≤ timeTrajectory.length) :
    display timeTrajectory postEventIndicesStock stateTrajectory inputTrajectory
      = dumpHeader timeTrajectory postEventIndicesStock ++
        (List.range timeTrajectory.length).flatMap
          (fun k => displaySample timeTrajectory stateTrajectory inputTrajectory k ++
            if k + 1 ∈ postEventIndicesStock then [Effect.cerr Line.eventTookPlace] else []) ∧
    (display timeTrajectory postEventIndicesStock stateTrajectory inputTrajectory).countP
        (fun e => e.isMarker) = postEventIndicesStock.length ∧
    Effect.cerr (Line.totalEvents postEventIndicesStock.length)
      ∈ dumpHeader timeTrajectory postEventIndicesStock ∧
    (∀ q ∈ postEventIndicesStock, ∃ t, timeTrajectory[q]? = some t ∧
      Effect.cerr (Line.eventTime (some t)) ∈ dumpHeader timeTrajectory postEventIndicesStock) := by
  have hmem : ∀ q ∈ postEventIndicesStock.drop 0, 0 < q ∧ q ≤ timeTrajectory.length := by
    intro q hq
    rw [List.drop_zero] at hq
    have := hp q hq
    omega
  have hseg := displayOuter_segmented timeTrajectory postEventIndicesStock stateTrajectory
    inputTrajectory (postEventIndicesStock.length + 1) 0 0 (by omega) (Nat.zero_le _)
    (fun h => absurd h (Nat.succ_ne_zero _)) (by rw [List.drop_zero]; exact hs) hmem
  rw [List.drop_zero] at hseg hmem
  refine ⟨?_, ?_, ?_, ?_⟩
  · rw [display_eq_header_append, hseg,
      segmentedDump_eq_flatMap timeTrajectory stateTrajectory inputTrajectory
        postEventIndicesStock 0 hs hmem (Nat.zero_le _),
      List.range_eq_range', Nat.sub_zero]
  · have h0 : (dumpHeader timeTrajectory postEventIndicesStock).countP
        (fun e => e.isMarker) = 0 := by
      apply List.countP_eq_zero.mpr
      intro e he
      simp [dumpHeader_no_marker timeTrajectory postEventIndicesStock e he]
    rw [display_eq_header_append, hseg, List.countP_append, h0,
      segmentedDump_markers, Nat.zero_add]
  · simp [dumpHeader]
  · intro q hq
    have hqn : q < timeTrajectory.length := by
      have := hp q hq
      omega
    have h1 : timeTrajectory[q]? = some timeTrajectory[q] := List.getElem?_eq_getElem hqn
    refine ⟨timeTrajectory[q], h1, ?_⟩
    have hne : postEventIndicesStock ≠ [] := List.ne_nil_of_mem hq
    unfold dumpHeader
    rw [if_neg hne]
    simp only [List.mem_append, List.mem_cons, List.mem_singleton, List.mem_flatMap]
    left; right; left; right
    exact ⟨q, hq, Or.inr (by rw [h1]; exact Or.inl rfl)⟩

/-- Witness of C15: four samples, event indices `1, 3`. -/
theorem display_event_markers_witness :
    (display ([0, 1, 2, 3] : List ℤ) [1, 3]
        [[Coeff.finite 1], [Coeff.finite 2], [Coeff.finite 3], [Coeff.finite 4]]
        none).countP (fun e => e.isMarker) = ([1, 3] : List Nat).length :=
  (display_event_markers ([0, 1, 2, 3] : List ℤ) [1, 3]
    [[Coeff.finite 1], [Coeff.finite 2], [Coeff.finite 3], [Coeff.finite 4]] none
    (by decide) (by decide)).2.1

/-! ## Rounding to the nearest double -/

theorem roundHalfEven_intCast (n : ℤ) : roundHalfEven (n : ℚ) = n := by
  unfold roundHalfEven
  simp

theorem roundHalfEven_bounds (y : ℚ) : ⌊y⌋ ≤ roundHalfEven y ∧ roundHalfEven y ≤ ⌊y⌋ + 1 := by
  unfold roundHalfEven
  split_ifs <;> constructor <;> omega

theorem roundHalfEven_mono {y z : ℚ} (h : y ≤ z) : roundHalfEven y ≤ roundHalfEven z := by
  have hf : ⌊y⌋ ≤ ⌊z⌋ := Int.floor_mono h
  rcases lt_or_eq_of_le hf with hlt | heq
  · exact le_trans (roundHalfEven_bounds y).2 (le_trans (by omega) (roundHalfEven_bounds z).1)
  · have hd : y - ⌊y⌋ ≤ z - ⌊z⌋ := by rw [heq]; linarith
    unfold roundHalfEven
    rw [heq]
    split_ifs <;> first | omega | (exfalso; linarith)

theorem ulpDouble_pos (x : ℚ) : 0 < ulpDouble x := by
  unfold ulpDouble
  positivity


theorem roundHalfEven_zero : roundHalfEven 0 = 0 := by
  have := roundHalfEven_intCast 0
  simpa using this

theorem roundDoubleNonneg_zero : roundDoubleNonneg 0 = 0 := by
  unfold roundDoubleNonneg
  rw [zero_div, roundHalfEven_zero]
  simp

theorem roundDoubleNonneg_nonneg {x : ℚ} (hx : 0 ≤ x) : 0 ≤ roundDoubleNonneg x := by
  unfold roundDoubleNonneg
  have h1 : (0 : ℚ) ≤ x / ulpDouble x := div_nonneg hx (le_of_lt (ulpDouble_pos x))
  have h2 : (0 : ℤ) ≤ roundHalfEven (x / ulpDouble x) := by
    have := roundHalfEven_mono h1
    rwa [roundHalfEven_zero] at this
  exact mul_nonneg (by exact_mod_cast h2) (le_of_lt (ulpDouble_pos x))

theorem roundDoubleNonneg_le_next (x : ℚ) :
    roundDoubleNonneg x ≤ (2 : ℚ) ^ (max (Int.log 2 x) (-1022) + 1) := by
  have hlt : x < (2 : ℚ) ^ (Int.log 2 x + 1) := by
    have := Int.lt_zpow_succ_log_self (b := 2) (by norm_num) x
    simpa using this
  have hle : (2 : ℚ) ^ (Int.log 2 x + 1) ≤ (2 : ℚ) ^ (max (Int.log 2 x) (-1022) + 1) :=
    zpow_le_zpow_right₀ (by norm_num) (by omega)
  have hx2 : x ≤ (2 : ℚ) ^ (max (Int.log 2 x) (-1022) + 1) := le_of_lt (lt_of_lt_of_le hlt hle)
  have hu : (2 : ℚ) ^ (max (Int.log 2 x) (-1022) + 1) = ((2 ^ 53 : ℤ) : ℚ) * ulpDouble x := by
    unfold ulpDouble
    have : ((2 ^ 53 : ℤ) : ℚ) = (2 : ℚ) ^ (53 : ℤ) := by norm_num
    rw [this, ← zpow_add₀ (by norm_num : (2 : ℚ) ≠ 0)]
    congr 1
    omega
  have hdiv : x / ulpDouble x ≤ ((2 ^ 53 : ℤ) : ℚ) := by
    rw [div_le_iff₀ (ulpDouble_pos x), ← hu]
    exact hx2
  have hr := roundHalfEven_mono hdiv
  rw [roundHalfEven_intCast] at hr
  unfold roundDoubleNonneg
  rw [hu]
  exact mul_le_mul_of_nonneg_right (by exact_mod_cast hr) (le_of_lt (ulpDouble_pos x))

theorem roundDoubleNonneg_ge_binade {x : ℚ} (hx : 0 < x) (hn : -1022 ≤ Int.log 2 x) :
    (2 : ℚ) ^ (max (Int.log 2 x) (-1022)) ≤ roundDoubleNonneg x := by
  have hmax : max (Int.log 2 x) (-1022) = Int.log 2 x := max_eq_left hn
  have hle : (2 : ℚ) ^ (Int.log 2 x) ≤ x := by
    have := Int.zpow_log_le_self (b := 2) (by norm_num) hx
    simpa using this
  have hu : (2 : ℚ) ^ (Int.log 2 x) = ((2 ^ 52 : ℤ) : ℚ) * ulpDouble x := by
    unfold ulpDouble
    rw [hmax]
    have : ((2 ^ 52 : ℤ) : ℚ) = (2 : ℚ) ^ (52 : ℤ) := by norm_num
    rw [this, ← zpow_add₀ (by norm_num : (2 : ℚ) ≠ 0)]
    congr 1
    omega
  have hdiv : ((2 ^ 52 : ℤ) : ℚ) ≤ x / ulpDouble x := by
    rw [le_div_iff₀ (ulpDouble_pos x), ← hu]
    exact hle
  have hr := roundHalfEven_mono hdiv
  rw [roundHalfEven_intCast] at hr
  unfold roundDoubleNonneg
  rw [hmax, hu]
  exact mul_le_mul_of_nonneg_right (by exact_mod_cast hr) (le_of_lt (ulpDouble_pos x))

theorem roundDoubleNonneg_mono {x y : ℚ} (hx : 0 ≤ x) (hxy : x ≤ y) :
    roundDoubleNonneg x ≤ roundDoubleNonneg y := by
  rcases eq_or_lt_of_le hx with h0 | hpos
  · rw [← h0]
    rw [roundDoubleNonneg_zero]
    exact roundDoubleNonneg_nonneg (le_trans hx hxy)
  · have hypos : 0 < y := lt_of_lt_of_le hpos hxy
    have hlog : Int.log 2 x ≤ Int.log 2 y := Int.log_mono_right hpos hxy
    have hE : max (Int.log 2 x) (-1022) ≤ max (Int.log 2 y) (-1022) :=
      max_le_max hlog (le_refl _)
    rcases eq_or_lt_of_le hE with heq | hlt
    · have hu : ulpDouble x = ulpDouble y := by
        unfold ulpDouble
        rw [heq]
      unfold roundDoubleNonneg
      rw [hu]
      have hdiv : x / ulpDouble y ≤ y / ulpDouble y :=
        div_le_div_of_nonneg_right hxy (le_of_lt (ulpDouble_pos y))
      exact mul_le_mul_of_nonneg_right (by exact_mod_cast roundHalfEven_mono hdiv)
        (le_of_lt (ulpDouble_pos y))
    · have hny : -1022 ≤ Int.log 2 y := by
        by_contra hcon
        have : max (Int.log 2 y) (-1022) = -1022 := max_eq_right (by omega)
        have h2 : -1022 ≤ max (Int.log 2 x) (-1022) := le_max_right _ _
        omega
      calc roundDoubleNonneg x
          ≤ (2 : ℚ) ^ (max (Int.log 2 x) (-1022) + 1) := roundDoubleNonneg_le_next x
        _ ≤ (2 : ℚ) ^ (max (Int.log 2 y) (-1022)) :=
            zpow_le_zpow_right₀ (by norm_num) (by omega)
        _ ≤ roundDoubleNonneg y := roundDoubleNonneg_ge_binade hypos hny

/-- Rounding to the nearest double is monotone. -/
theorem roundDouble_mono : Monotone roundDouble := by
  intro x y hxy
  unfold roundDouble
  by_cases hx : x < 0
  · by_cases hy : y < 0
    · rw [if_pos hx, if_pos hy]
      have := roundDoubleNonneg_mono (x := -y) (y := -x) (by linarith) (by linarith)
      linarith
    · rw [if_pos hx, if_neg hy]
      have h1 := roundDoubleNonneg_nonneg (x := -x) (by linarith)
      have h2 := roundDoubleNonneg_nonneg (x := y) (not_lt.mp hy)
      linarith
  · have hy : ¬ y < 0 := fun h => hx (lt_of_le_of_lt hxy h)
    rw [if_neg hx, if_neg hy]
    exact roundDoubleNonneg_mono (not_lt.mp hx) hxy

/-- The double nearest to a positive `x` in the binade `[2 ^ n, 2 ^ (n + 1))`. -/
theorem roundDouble_of_binade (x : ℚ) (n : ℤ) (hn : -1022 ≤ n)
    (hlo : (2 : ℚ) ^ n ≤ x) (hhi : x < (2 : ℚ) ^ (n + 1)) :
    roundDouble x = (roundHalfEven (x / (2 : ℚ) ^ (n - 52)) : ℚ) * (2 : ℚ) ^ (n - 52) := by
  have hpos : 0 < x := lt_of_lt_of_le (by positivity) hlo
  have hlog : Int.log 2 x = n := by
    apply le_antisymm
    · have := (Int.lt_zpow_iff_log_lt (b := 2) (by norm_num) hpos (x := n + 1)).mp
        (by simpa using hhi)
      omega
    · exact (Int.zpow_le_iff_le_log (b := 2) (by norm_num) hpos).mp (by simpa using hlo)
  have hu : ulpDouble x = (2 : ℚ) ^ (n - 52) := by
    unfold ulpDouble
    rw [hlog, max_eq_left hn]
  unfold roundDouble roundDoubleNonneg
  rw [if_neg (not_lt.mpr (le_of_lt hpos)), hu]

/-- A rational `m * 2 ^ (n - 52)` with integer `m` that lies in the binade
`[2 ^ n, 2 ^ (n + 1))` is a double: rounding leaves it unchanged. -/
theorem roundDouble_representable (x : ℚ) (m n : ℤ) (hn : -1022 ≤ n)
    (hx : x = (m : ℚ) * (2 : ℚ) ^ (n - 52))
    (hlo : (2 : ℚ) ^ n ≤ x) (hhi : x < (2 : ℚ) ^ (n + 1)) :
    roundDouble x = x := by
  rw [roundDouble_of_binade x n hn hlo hhi]
  have hu : (2 : ℚ) ^ (n - 52) ≠ 0 := by positivity
  have hdiv : x / (2 : ℚ) ^ (n - 52) = (m : ℚ) := by
    rw [hx, mul_div_assoc, div_self hu, mul_one]
  rw [hdiv, roundHalfEven_intCast, ← hx]

/-! ## Facts about the interval loop in rounded arithmetic -/

theorem adjustStartRounded_id {α : Type} [LinearOrderedField α] (eps : α) (p : α × α) :
    adjustStartRounded id eps p = adjustStart eps p := rfl

theorem timeIntervalArrayRounded_id {α : Type} [LinearOrderedField α] (eps : α)
    (sw : List α) :
    timeIntervalArrayRounded id eps sw = timeIntervalArray eps sw := rfl

/-- With no rounding the rounded model of `run` is the exact one. -/
theorem runRounded_id {α S ε β : Type} [LinearOrderedField α]
    (runImpl : time_interval_array_t α → S → Except ε β) (eps : α)
    (initTime : α) (initState : S) (finalTime : α) (eventTimes : scalar_array_t α) :
    runRounded runImpl id eps initTime initState finalTime eventTimes
      = run runImpl eps initTime initState finalTime eventTimes := rfl

theorem timeIntervalArrayRounded_eq_map {α : Type} [LinearOrderedField α] (rnd : α → α)
    (eps : α) (sw : List α) :
    timeIntervalArrayRounded rnd eps sw
      = (List.range (sw.length - 1)).map
          (fun i => adjustStartRounded rnd eps (nominalInterval sw i)) := by
  simp [timeIntervalArrayRounded, foldl_push_eq_map]

theorem timeIntervalArrayRounded_length {α : Type} [LinearOrderedField α] (rnd : α → α)
    (eps : α) (sw : List α) :
    (timeIntervalArrayRounded rnd eps sw).length = sw.length - 1 := by
  simp [timeIntervalArrayRounded_eq_map]

theorem timeIntervalArrayRounded_getElem? {α : Type} [LinearOrderedField α] (rnd : α → α)
    (eps : α) (sw : List α) (i : Nat) (hi : i < sw.length - 1) :
    (timeIntervalArrayRounded rnd eps sw)[i]?
      = some (adjustStartRounded rnd eps (nominalInterval sw i)) := by
  simp [timeIntervalArrayRounded_eq_map, List.getElem?_map, List.getElem?_range hi]

theorem timeIntervalArrayRounded_cons_cons {α : Type} [LinearOrderedField α] (rnd : α → α)
    (eps a b : α) (l : List α) :
    timeIntervalArrayRounded rnd eps (a :: b :: l)
      = adjustStartRounded rnd eps (a, b) :: timeIntervalArrayRounded rnd eps (b :: l) := by
  simp only [timeIntervalArrayRounded_eq_map, List.length_cons, Nat.add_sub_cancel]
  rw [List.range_succ_eq_map, List.map_cons, List.map_map]
  congr 1

theorem timeIntervalArrayRounded_singleton {α : Type} [LinearOrderedField α] (rnd : α → α)
    (eps a : α) :
    timeIntervalArrayRounded rnd eps [a] = [] := by
  simp [timeIntervalArrayRounded]

theorem adjustStartRounded_snd {α : Type} [LinearOrderedField α] (rnd : α → α) (eps : α)
    (p : α × α) :
    (adjustStartRounded rnd eps p).2 = p.2 := by
  unfold adjustStartRounded
  split <;> rfl

/-- What a call of the rounded model that passes the guard does: it constructs the
intervals, invokes the hook once on them and returns what the hook returns. -/
theorem runRounded_ok {α S ε β : Type} [LinearOrderedField α]
    (runImpl : time_interval_array_t α → S → Except ε β) (rnd : α → α) (eps : α)
    (initTime : α) (initState : S) (finalTime : α) (eventTimes : scalar_array_t α)
    (hle : initTime ≤ finalTime) :
    (runRounded runImpl rnd eps initTime initState finalTime eventTimes).constructed
      = timeIntervalArrayRounded rnd eps (switchingTimes initTime finalTime eventTimes) ∧
    (runRounded runImpl rnd eps initTime initState finalTime eventTimes).hookCalls
      = [(timeIntervalArrayRounded rnd eps (switchingTimes initTime finalTime eventTimes),
          initState)] ∧
    (runRounded runImpl rnd eps initTime initState finalTime eventTimes).result
      = (match runImpl
            (timeIntervalArrayRounded rnd eps (switchingTimes initTime finalTime eventTimes))
            initState with
          | Except.ok r => Except.ok r
          | Except.error e => Except.error (RolloutError.hook e)) := by
  simp [runRounded, not_lt.mpr hle]

theorem runRounded_constructed_getElem? {α S ε β : Type} [LinearOrderedField α]
    (runImpl : time_interval_array_t α → S → Except ε β) (rnd : α → α) (eps : α)
    (initTime : α) (initState : S) (finalTime : α) (eventTimes : scalar_array_t α)
    (i : Nat) (iv : α × α)
    (hiv : (runRounded runImpl rnd eps initTime initState finalTime eventTimes).constructed[i]?
      = some iv) :
    initTime ≤ finalTime ∧
    i + 1 < (switchingTimes initTime finalTime eventTimes).length ∧
    iv = adjustStartRounded rnd eps
      (nominalInterval (switchingTimes initTime finalTime eventTimes) i) := by
  by_cases hgt : initTime > finalTime
  · simp [runRounded, hgt] at hiv
  · have hle := not_lt.mp hgt
    rw [(runRounded_ok runImpl rnd eps initTime initState finalTime eventTimes hle).1] at hiv
    have hi : i < (switchingTimes initTime finalTime eventTimes).length - 1 := by
      have := (List.getElem?_eq_some_iff.mp hiv).1
      rwa [timeIntervalArrayRounded_length] at this
    rw [timeIntervalArrayRounded_getElem? rnd eps _ i hi] at hiv
    exact ⟨hle, by omega, (Option.some.inj hiv).symm⟩

/-- Every switching time is `initTime`, `finalTime` or one of the event times. -/
theorem switchingTimes_mem {α : Type} [LinearOrder α] (initTime finalTime : α)
    (eventTimes : List α) (x : α) (hx : x ∈ switchingTimes initTime finalTime eventTimes) :
    x ∈ initTime :: finalTime :: eventTimes := by
  simp only [switchingTimes, List.mem_append, List.mem_singleton, List.mem_cons,
    List.not_mem_nil, or_false] at hx ⊢
  rcases hx with (h | h) | h
  · exact Or.inl h
  · exact Or.inr (Or.inr (List.mem_of_mem_drop (List.mem_of_mem_take h)))
  · exact Or.inr (Or.inl h)

theorem nominalInterval_mem {α : Type} [Zero α] (sw : List α) (i : Nat)
    (hi : i + 1 < sw.length) :
    (nominalInterval sw i).1 ∈ sw ∧ (nominalInterval sw i).2 ∈ sw := by
  have h := nominalInterval_getElem? sw i hi
  obtain ⟨h1, e1⟩ := List.getElem?_eq_some_iff.mp h.1
  obtain ⟨h2, e2⟩ := List.getElem?_eq_some_iff.mp h.2
  exact ⟨e1 ▸ List.getElem_mem h1, e2 ▸ List.getElem_mem h2⟩

/-- A rounded difference above a representable `eps` comes from an exact difference above
`eps`, when rounding is monotone. -/
theorem gt_of_rounded_gt {α : Type} [LinearOrderedField α] (rnd : α → α)
    (hmono : Monotone rnd) (eps d : α) (he : rnd eps = eps) (h : rnd d > eps) : d > eps := by
  by_contra hcon
  have := hmono (not_lt.mp hcon)
  rw [he] at this
  exact absurd h (not_lt.mpr this)

theorem adjustStartRounded_bounds {α : Type} [LinearOrderedField α] (rnd : α → α)
    (hmono : Monotone rnd) (eps : α) (p : α × α)
    (h1 : rnd p.1 = p.1) (h2 : rnd p.2 = p.2) (he : rnd eps = eps)
    (heps : 0 ≤ eps) (hp : p.1 ≤ p.2) :
    p.1 ≤ (adjustStartRounded rnd eps p).1 ∧
    (adjustStartRounded rnd eps p).1 ≤ (adjustStartRounded rnd eps p).2 := by
  unfold adjustStartRounded
  by_cases h : rnd (p.2 - p.1) > eps
  · rw [if_pos h]
    have hd := gt_of_rounded_gt rnd hmono eps _ he h
    constructor
    · show p.1 ≤ rnd (p.1 + eps)
      have := hmono (le_add_of_nonneg_right heps : p.1 ≤ p.1 + eps)
      rwa [h1] at this
    · show rnd (p.1 + eps) ≤ p.2
      have hle : p.1 + eps ≤ p.2 := by linarith
      have := hmono hle
      rwa [h2] at this
  · rw [if_neg h]
    exact ⟨hp, le_refl _⟩

/-- From ascending representable switching times the rounded loop builds intervals whose
stored starts and whose ends are ascending, none below the first switching time. -/
theorem timeIntervalArrayRounded_ascending {α : Type} [LinearOrderedField α] (rnd : α → α)
    (hmono : Monotone rnd) (eps : α) (he : rnd eps = eps) (heps : 0 ≤ eps) :
    ∀ (l : List α) (a : α), (a :: l).Sorted (fun x y => x ≤ y) →
      (∀ x ∈ a :: l, rnd x = x) →
      (∀ iv ∈ timeIntervalArrayRounded rnd eps (a :: l), a ≤ iv.1 ∧ a ≤ iv.2) ∧
      ((timeIntervalArrayRounded rnd eps (a :: l)).map Prod.fst).Sorted (fun x y => x ≤ y) ∧
      ((timeIntervalArrayRounded rnd eps (a :: l)).map Prod.snd).Sorted (fun x y => x ≤ y) := by
  intro l
  induction l with
  | nil =>
    intro a _ _
    simp [timeIntervalArrayRounded_singleton]
  | cons b l ih =>
    intro a hs hfix
    have hs2 := List.sorted_cons.mp hs
    have hab : a ≤ b := hs2.1 b (List.mem_cons_self b l)
    obtain ⟨hmem, hfst, hsnd⟩ := ih b hs2.2 (fun x hx => hfix x (List.mem_cons_of_mem a hx))
    have hadj := adjustStartRounded_bounds rnd hmono eps (a, b)
      (hfix a (List.mem_cons_self a _)) (hfix b (List.mem_cons_of_mem a (List.mem_cons_self b l)))
      he heps hab
    have hadj2 : (adjustStartRounded rnd eps (a, b)).2 = b := adjustStartRounded_snd rnd eps (a, b)
    rw [timeIntervalArrayRounded_cons_cons]
    refine ⟨?_, ?_, ?_⟩
    · intro iv hiv
      rcases List.mem_cons.mp hiv with h | h
      · rw [h]
        exact ⟨hadj.1, by rw [hadj2]; exact hab⟩
      · exact ⟨le_trans hab (hmem iv h).1, le_trans hab (hmem iv h).2⟩
    · rw [List.map_cons]
      apply List.sorted_cons.mpr
      refine ⟨?_, hfst⟩
      intro y hy
      obtain ⟨iv, hiv, rfl⟩ := List.mem_map.mp hy
      have h1 : (adjustStartRounded rnd eps (a, b)).1 ≤ b := by
        have := hadj.2
        rwa [hadj2] at this
      exact le_trans h1 (hmem iv hiv).1
    · rw [List.map_cons]
      apply List.sorted_cons.mpr
      refine ⟨?_, hsnd⟩
      intro y hy
      obtain ⟨iv, hiv, rfl⟩ := List.mem_map.mp hy
      rw [hadj2]
      exact (hmem iv hiv).2

/-- A positive rational in the binade `[2 ^ n, 2 ^ (n + 1))` that lies less than half a
spacing above the double `m * 2 ^ (n - 52)` is rounded down to that double. -/
theorem roundDouble_round_down (x : ℚ) (m n : ℤ) (d : ℚ) (hn : -1022 ≤ n)
    (hx : x = ((m : ℚ) + d) * (2 : ℚ) ^ (n - 52)) (hd0 : 0 ≤ d) (hd : d < 1 / 2)
    (hlo : (2 : ℚ) ^ n ≤ x) (hhi : x < (2 : ℚ) ^ (n + 1)) :
    roundDouble x = (m : ℚ) * (2 : ℚ) ^ (n - 52) := by
  rw [roundDouble_of_binade x n hn hlo hhi]
  have hu : (2 : ℚ) ^ (n - 52) ≠ 0 := by positivity
  have hdiv : x / (2 : ℚ) ^ (n - 52) = (m : ℚ) + d := by
    rw [hx, mul_div_assoc, div_self hu, mul_one]
  have hfloor : ⌊(m : ℚ) + d⌋ = m := by
    rw [Int.floor_eq_iff]
    constructor <;> linarith
  have hr : roundHalfEven ((m : ℚ) + d) = m := by
    unfold roundHalfEven
    rw [hfloor, if_pos (by linarith)]
  rw [hdiv, hr]

/-- The intervals that the rounded loop builds in doubles for the horizon
`[2^31, 2^31 + 10]` with one event at `2^31 + 3` and weak epsilon `2^-30`: neither start is
moved, because `2^31 + 2^-30` and `2^31 + 3 + 2^-30` round back to `2^31` and `2^31 + 3`. -/
theorem largeTimes_intervals :
    timeIntervalArrayRounded roundDouble (1 / 1073741824)
        (switchingTimes (2147483648 : ℚ) 2147483658 [2147483651])
      = [(2147483648, 2147483651), (2147483651, 2147483658)] := by
  have hs : List.Sorted (fun a b : ℚ => a ≤ b) [2147483651] := by simp [List.Sorted]
  have hf : List.filter (inRange (2147483648 : ℚ) 2147483658) [2147483651] = [2147483651] := by
    simp [List.filter, inRange]; norm_num
  have r3 : roundDouble 3 = 3 :=
    roundDouble_representable 3 6755399441055744 1 (by norm_num) (by norm_num) (by norm_num)
      (by norm_num)
  have r7 : roundDouble 7 = 7 :=
    roundDouble_representable 7 7881299347898368 2 (by norm_num) (by norm_num) (by norm_num)
      (by norm_num)
  have ra : roundDouble (2147483648 + 1 / 1073741824) = 2147483648 := by
    rw [roundDouble_round_down (2147483648 + 1 / 1073741824) 4503599627370496 31 (1 / 512)
      (by norm_num) (by norm_num) (by norm_num) (by norm_num) (by norm_num) (by norm_num)]
    norm_num
  have rb : roundDouble (2147483651 + 1 / 1073741824) = 2147483651 := by
    rw [roundDouble_round_down (2147483651 + 1 / 1073741824) 4503599633661952 31 (1 / 512)
      (by norm_num) (by norm_num) (by norm_num) (by norm_num) (by norm_num) (by norm_num)]
    norm_num
  rw [switchingTimes_sorted _ _ _ hs, hf]
  simp only [List.cons_append, List.nil_append, timeIntervalArrayRounded_cons_cons,
    timeIntervalArrayRounded_singleton]
  have e1 : adjustStartRounded roundDouble (1 / 1073741824) ((2147483648 : ℚ), 2147483651)
      = (2147483648, 2147483651) := by
    unfold adjustStartRounded
    rw [if_pos]
    · show (roundDouble (2147483648 + 1 / 1073741824), (2147483651 : ℚ)) = _
      rw [ra]
    · show roundDouble ((2147483651 : ℚ) - 2147483648) > 1 / 1073741824
      rw [show (2147483651 : ℚ) - 2147483648 = 3 by norm_num, r3]
      norm_num
  have e2 : adjustStartRounded roundDouble (1 / 1073741824) ((2147483651 : ℚ), 2147483658)
      = (2147483651, 2147483658) := by
    unfold adjustStartRounded
    rw [if_pos]
    · show (roundDouble (2147483651 + 1 / 1073741824), (2147483658 : ℚ)) = _
      rw [rb]
    · show roundDouble ((2147483658 : ℚ) - 2147483651) > 1 / 1073741824
      rw [show (2147483658 : ℚ) - 2147483651 = 7 by norm_num, r7]
      norm_num
  rw [e1, e2]

theorem roundDouble_fix_large :
    ∀ x ∈ [(1 / 1073741824 : ℚ), 2147483648, 2147483658, 2147483651], roundDouble x = x := by
  intro x hx
  simp only [List.mem_cons, List.mem_singleton, List.not_mem_nil, or_false] at hx
  rcases hx with h | h | h | h <;> subst h
  · exact roundDouble_representable (1 / 1073741824) 4503599627370496 (-30) (by norm_num)
      (by norm_num) (by norm_num) (by norm_num)
  · exact roundDouble_representable 2147483648 4503599627370496 31 (by norm_num)
      (by norm_num) (by norm_num) (by norm_num)
  · exact roundDouble_representable 2147483658 4503599648342016 31 (by norm_num)
      (by norm_num) (by norm_num) (by norm_num)
  · exact roundDouble_representable 2147483651 4503599633661952 31 (by norm_num)
      (by norm_num) (by norm_num) (by norm_num)

/-! ## Interval builder in double arithmetic: the claims -/

/-- C2 (epsilon nudge in double arithmetic). In the rounded arithmetic of the source (`rnd` monotone;
`eps > 0`, `initTime`, `finalTime` and the event times representable), let interval `i`
built by `run` have the nominal boundaries `b = switchingTimes[i]` and
`e = switchingTimes[i + 1]`. If the rounded difference `rnd (e - b)` exceeds `eps`, then
`e - b > eps` and the stored start is the rounded sum `rnd (b + eps)`, which is not below
`b` and exceeds `b` by exactly `eps` when `b + eps` is representable (always so without
rounding). If `rnd (e - b) ≤ eps`, in particular if `e - b ≤ eps`, the stored start is `e`.
The stored end is `e` in both cases. -/
theorem runRounded_epsilon_nudge {α S ε β : Type} [LinearOrderedField α]
    (runImpl : time_interval_array_t α → S → Except ε β) (rnd : α → α) (eps : α)
    (initTime : α) (initState : S) (finalTime : α) (eventTimes : scalar_array_t α)
    (hmono : Monotone rnd)
    (hfix : ∀ x ∈ eps :: initTime :: finalTime :: eventTimes, rnd x = x)
    (heps : 0 < eps) (i : Nat) (iv : α × α)
    (hiv : (runRounded runImpl rnd eps initTime initState finalTime eventTimes).constructed[i]?
      = some iv) :
    let sw := switchingTimes initTime finalTime eventTimes
    let b := (nominalInterval sw i).1
    let e := (nominalInterval sw i).2
    sw[i]? = some b ∧ sw[i + 1]? = some e ∧
    (rnd (e - b) > eps →
      e - b > eps ∧ iv.1 = rnd (b + eps) ∧ b ≤ iv.1 ∧
      (rnd (b + eps) = b + eps → b < iv.1 ∧ iv.1 - b = eps)) ∧
    (rnd (e - b) ≤ eps → iv.1 = e) ∧
    (e - b ≤ eps → iv.1 = e) ∧
    iv.2 = e := by
  intro sw b e
  obtain ⟨_, hi, hiv2⟩ := runRounded_constructed_getElem? runImpl rnd eps initTime initState
    finalTime eventTimes i iv hiv
  have hget := nominalInterval_getElem? sw i hi
  have he : rnd eps = eps := hfix eps (List.mem_cons_self _ _)
  have hb : rnd b = b :=
    hfix b (List.mem_cons_of_mem _
      (switchingTimes_mem initTime finalTime eventTimes b (nominalInterval_mem sw i hi).1))
  have hdeg : rnd (e - b) ≤ eps → iv.1 = e := by
    intro h
    rw [hiv2]
    unfold adjustStartRounded
    rw [if_neg (not_lt.mpr h)]
  refine ⟨hget.1, hget.2, ?_, hdeg, ?_, ?_⟩
  · intro h
    have h1 : iv.1 = rnd (b + eps) := by
      rw [hiv2]
      unfold adjustStartRounded
      rw [if_pos h]
    refine ⟨gt_of_rounded_gt rnd hmono eps _ he h, h1, ?_, ?_⟩
    · rw [h1]
      have := hmono (le_add_of_nonneg_right (le_of_lt heps) : b ≤ b + eps)
      rwa [hb] at this
    · intro hrep
      rw [h1, hrep]
      exact ⟨lt_add_of_pos_right b heps, add_sub_cancel_left b eps⟩
  · intro h
    apply hdeg
    have := hmono h
    rwa [he] at this
  · rw [hiv2]
    exact adjustStartRounded_snd rnd eps _

/-- Witness of C2 in doubles: the first interval for the horizon
`[2^31, 2^31 + 10]` with one event at `2^31 + 3` and weak epsilon `2^-30`. -/
theorem runRounded_epsilon_nudge_witness :
    (runRounded (fun (_ : time_interval_array_t ℚ) (_ : Unit) =>
        (Except.ok () : Except Unit Unit)) roundDouble (1 / 1073741824) 2147483648 ()
        2147483658 [2147483651]).constructed[0]?
      = some (2147483648, 2147483651) ∧
    ((2147483648 : ℚ), (2147483651 : ℚ)).2
      = (nominalInterval (switchingTimes (2147483648 : ℚ) 2147483658 [2147483651]) 0).2 :=
  have hiv : (runRounded (fun (_ : time_interval_array_t ℚ) (_ : Unit) =>
        (Except.ok () : Except Unit Unit)) roundDouble (1 / 1073741824) 2147483648 ()
        2147483658 [2147483651]).constructed[0]?
      = some (2147483648, 2147483651) := by
    rw [(runRounded_ok _ _ _ _ _ _ _ (by norm_num)).1, largeTimes_intervals]
    simp
  ⟨hiv,
    (runRounded_epsilon_nudge _ roundDouble (1 / 1073741824) 2147483648 () 2147483658
      [2147483651] roundDouble_mono
      (fun x hx => roundDouble_fix_large x (by simpa using hx))
      (by norm_num) 0 _ hiv).2.2.2.2.2⟩

/-- Counterexample to C2 as stated: in doubles, for the horizon `[2^31, 2^31 + 10]` with one
event at `2^31 + 3` and weak epsilon `2^-30`, the first interval has nominal boundaries
`b = 2^31` and `e = 2^31 + 3` with `e - b = 3 > eps`, yet its stored start is `b`: it is not
`b + eps` and it is not greater than `b`. -/
theorem epsilon_nudge_lost_in_doubles :
    (runRounded (fun (_ : time_interval_array_t ℚ) (_ : Unit) =>
        (Except.ok () : Except Unit Unit)) roundDouble (1 / 1073741824) 2147483648 ()
        2147483658 [2147483651]).constructed[0]?
      = some (2147483648, 2147483651) ∧
    nominalInterval (switchingTimes (2147483648 : ℚ) 2147483658 [2147483651]) 0
      = (2147483648, 2147483651) ∧
    (2147483651 : ℚ) - 2147483648 > 1 / 1073741824 ∧
    ((2147483648 : ℚ), (2147483651 : ℚ)).1 ≠ 2147483648 + 1 / 1073741824 ∧
    ¬ ((2147483648 : ℚ) < ((2147483648 : ℚ), (2147483651 : ℚ)).1) := by
  refine ⟨?_, ?_, by norm_num, by norm_num, by norm_num⟩
  · rw [(runRounded_ok _ _ _ _ _ _ _ (by norm_num)).1, largeTimes_intervals]
    simp
  · have hs : List.Sorted (fun a b : ℚ => a ≤ b) [2147483651] := by simp [List.Sorted]
    rw [switchingTimes_sorted _ _ _ hs]
    simp [nominalInterval, List.filter, inRange]
    norm_num

/-- C12 (ordered and disjoint in double arithmetic). For `initTime ≤ finalTime`, ascending event times and
weak epsilon `eps > 0`, in the rounded arithmetic of the source (`rnd` monotone; `eps`,
`initTime`, `finalTime` and the event times representable): two consecutive stored intervals
`p = (s_i, e_i)` and `q = (s_{i+1}, e_{i+1})` satisfy `e_i ≤ s_{i+1}`, and `e_i < s_{i+1}`
when the nominal length of the later interval exceeds `eps` and the rounded sum
`rnd (b + eps)` of its nominal begin `b` and `eps` differs from `b` (always so without
rounding); the stored starts and the stored ends do not decrease from one interval to the
next, so the list of stored starts and the list of stored ends are each ascending. -/
theorem runRounded_intervals_ordered {α S ε β : Type} [LinearOrderedField α]
    (runImpl : time_interval_array_t α → S → Except ε β) (rnd : α → α) (eps : α)
    (initTime : α) (initState : S) (finalTime : α) (eventTimes : scalar_array_t α)
    (hle : initTime ≤ finalTime) (hs : eventTimes.Sorted (fun a b => a ≤ b))
    (heps : 0 < eps) (hmono : Monotone rnd)
    (hfix : ∀ x ∈ eps :: initTime :: finalTime :: eventTimes, rnd x = x) :
    (∀ (i : Nat) (p q : α × α),
      (runRounded runImpl rnd eps initTime initState finalTime eventTimes).constructed[i]?
        = some p →
      (runRounded runImpl rnd eps initTime initState finalTime eventTimes).constructed[i + 1]?
        = some q →
      p.2 ≤ q.1 ∧
      ((nominalInterval (switchingTimes initTime finalTime eventTimes) (i + 1)).2
          - (nominalInterval (switchingTimes initTime finalTime eventTimes) (i + 1)).1 > eps →
        rnd ((nominalInterval (switchingTimes initTime finalTime eventTimes) (i + 1)).1 + eps)
          ≠ (nominalInterval (switchingTimes initTime finalTime eventTimes) (i + 1)).1 →
        p.2 < q.1) ∧
      p.1 ≤ q.1 ∧ p.2 ≤ q.2) ∧
    ((runRounded runImpl rnd eps initTime initState finalTime eventTimes).constructed.map
      Prod.fst).Sorted (fun x y => x ≤ y) ∧
    ((runRounded runImpl rnd eps initTime initState finalTime eventTimes).constructed.map
      Prod.snd).Sorted (fun x y => x ≤ y) := by
  have he : rnd eps = eps := hfix eps (List.mem_cons_self _ _)
  have hfixsw : ∀ x ∈ switchingTimes initTime finalTime eventTimes, rnd x = x :=
    fun x hx => hfix x (List.mem_cons_of_mem _
      (switchingTimes_mem initTime finalTime eventTimes x hx))
  have hasc := switchingTimes_ascending initTime finalTime eventTimes hle hs
  have hsorted : ((runRounded runImpl rnd eps initTime initState finalTime
        eventTimes).constructed.map Prod.fst).Sorted (fun x y => x ≤ y) ∧
      ((runRounded runImpl rnd eps initTime initState finalTime
        eventTimes).constructed.map Prod.snd).Sorted (fun x y => x ≤ y) := by
    have hasc2 := hasc
    have hfix2 := hfixsw
    rw [(runRounded_ok runImpl rnd eps initTime initState finalTime eventTimes hle).1]
    rw [switchingTimes_sorted initTime finalTime eventTimes hs] at hasc2 hfix2 ⊢
    exact (timeIntervalArrayRounded_ascending rnd hmono eps he (le_of_lt heps) _ _
      hasc2 hfix2).2
  refine ⟨?_, hsorted⟩
  intro i p q hp hq
  obtain ⟨_, hi, hp2⟩ := runRounded_constructed_getElem? runImpl rnd eps initTime initState
    finalTime eventTimes i p hp
  obtain ⟨_, hi1, hq2⟩ := runRounded_constructed_getElem? runImpl rnd eps initTime initState
    finalTime eventTimes (i + 1) q hq
  have hnp := nominalInterval_le _ hasc i hi
  have hnq := nominalInterval_le _ hasc (i + 1) hi1
  have hmp := nominalInterval_mem (switchingTimes initTime finalTime eventTimes) i hi
  have hmq := nominalInterval_mem (switchingTimes initTime finalTime eventTimes) (i + 1) hi1
  have hbp := adjustStartRounded_bounds rnd hmono eps _ (hfixsw _ hmp.1) (hfixsw _ hmp.2) he
    (le_of_lt heps) hnp
  have hbq := adjustStartRounded_bounds rnd hmono eps _ (hfixsw _ hmq.1) (hfixsw _ hmq.2) he
    (le_of_lt heps) hnq
  have hend : p.2 = (nominalInterval (switchingTimes initTime finalTime eventTimes) (i + 1)).1 := by
    rw [hp2, adjustStartRounded_snd]
    simp [nominalInterval]
  have h1 : p.2 ≤ q.1 := by
    rw [hend, hq2]; exact hbq.1
  refine ⟨h1, ?_, ?_, ?_⟩
  · intro hgt hne
    rw [hend, hq2]
    unfold adjustStartRounded
    by_cases hbr : rnd ((nominalInterval (switchingTimes initTime finalTime eventTimes) (i + 1)).2
        - (nominalInterval (switchingTimes initTime finalTime eventTimes) (i + 1)).1) > eps
    · rw [if_pos hbr]
      have hge := hmono (le_add_of_nonneg_right (le_of_lt heps) :
        (nominalInterval (switchingTimes initTime finalTime eventTimes) (i + 1)).1
          ≤ (nominalInterval (switchingTimes initTime finalTime eventTimes) (i + 1)).1 + eps)
      rw [hfixsw _ hmq.1] at hge
      exact lt_of_le_of_ne hge (Ne.symm hne)
    · rw [if_neg hbr]
      show (nominalInterval (switchingTimes initTime finalTime eventTimes) (i + 1)).1
        < (nominalInterval (switchingTimes initTime finalTime eventTimes) (i + 1)).2
      linarith
  · have : p.1 ≤ p.2 := by rw [hp2]; exact hbp.2
    exact le_trans this h1
  · have : q.1 ≤ q.2 := by rw [hq2]; exact hbq.2
    exact le_trans h1 this

/-- Witness of C12 in doubles: the two intervals for the horizon
`[2^31, 2^31 + 10]` with one event at `2^31 + 3` and weak epsilon `2^-30`. -/
theorem runRounded_intervals_ordered_witness :
    ((2147483648 : ℚ), (2147483651 : ℚ)).2 ≤ ((2147483651 : ℚ), (2147483658 : ℚ)).1 :=
  have hc : (runRounded (fun (_ : time_interval_array_t ℚ) (_ : Unit) =>
        (Except.ok () : Except Unit Unit)) roundDouble (1 / 1073741824) 2147483648 ()
        2147483658 [2147483651]).constructed
      = [(2147483648, 2147483651), (2147483651, 2147483658)] := by
    rw [(runRounded_ok _ _ _ _ _ _ _ (by norm_num)).1, largeTimes_intervals]
  ((runRounded_intervals_ordered (fun (_ : time_interval_array_t ℚ) (_ : Unit) =>
      (Except.ok () : Except Unit Unit)) roundDouble (1 / 1073741824) 2147483648 ()
      2147483658 [2147483651] (by norm_num) (by simp [List.Sorted]) (by norm_num)
      roundDouble_mono (fun x hx => roundDouble_fix_large x (by simpa using hx))).1 0
    (2147483648, 2147483651) (2147483651, 2147483658)
    (by rw [hc]; simp) (by rw [hc]; simp)).1

/-- Counterexample to C12 as stated: in doubles, for the horizon `[2^31, 2^31 + 10]` with one
event at `2^31 + 3` and weak epsilon `2^-30`, the stored intervals are
`(2^31, 2^31 + 3)` and `(2^31 + 3, 2^31 + 10)`. The later interval has nominal length
`7 > eps`, yet the end of the first interval is not below the stored start of the later one:
the two are equal. -/
theorem intervals_touch_in_doubles :
    (runRounded (fun (_ : time_interval_array_t ℚ) (_ : Unit) =>
        (Except.ok () : Except Unit Unit)) roundDouble (1 / 1073741824) 2147483648 ()
        2147483658 [2147483651]).constructed
      = [(2147483648, 2147483651), (2147483651, 2147483658)] ∧
    nominalInterval (switchingTimes (2147483648 : ℚ) 2147483658 [2147483651]) 1
      = (2147483651, 2147483658) ∧
    (2147483658 : ℚ) - 2147483651 > 1 / 1073741824 ∧
    ¬ (((2147483648 : ℚ), (2147483651 : ℚ)).2 < ((2147483651 : ℚ), (2147483658 : ℚ)).1) := by
  refine ⟨?_, ?_, by norm_num, by norm_num⟩
  · rw [(runRounded_ok _ _ _ _ _ _ _ (by norm_num)).1, largeTimes_intervals]
  · have hs : List.Sorted (fun a b : ℚ => a ≤ b) [2147483651] := by simp [List.Sorted]
    rw [switchingTimes_sorted _ _ _ hs]
    simp [nominalInterval, List.filter, inRange]
    norm_num

end ocs2
